import Mathlib

/-!
Verification development for the request-dispatch core of `tangled.web`
(`tangled/web/resource/mounted.py`, `tangled/web/handlers.py`,
`tangled/web/request.py`).

The Python sources are shallowly embedded:

* path-pattern compilation (`MountedResource.path_regex`) is modelled at the
  string level: the two `re.sub` rewrites are implemented character by
  character, and the resulting regex source string is parsed into a small
  regex AST `Regex` whose backtracking matcher models the relevant fragment
  of Python `re` (anchored `^...$` search, named groups, character classes,
  `+ * ?` and alternation).  `\w` is modelled as ASCII alphanumeric or
  underscore, and the Python corner case that `$` also matches before a final
  newline is not modelled (paths do not contain newlines).  The replacement
  templates pass `\w` through literally, the behaviour of the Python 3.3/3.4
  the package declares (since Python 3.7 such a replacement raises).
* handler-stage logic is modelled as total functions over explicit state
  records; Python exceptions become `Except` values, and `try/except` blocks
  become `match` on those values.
-/

/-- Captured groups of a regex match: group name paired with the matched
substring, in the order the groups closed. -/
abbrev Caps := List (String × String)

/-- One item of a regex character class `[...]`. -/
inductive CItem where
  | chr (c : Char)
  | rng (a b : Char)
  | word
  | digit
  | space
deriving DecidableEq, Repr

/-- Regex AST for the fragment of Python `re` that compiled path patterns
use.  `group none` is a plain or non-capturing group (no entry in
`groupdict`), `group (some n)` is `(?P<n>...)`. -/
inductive Regex where
  | emp
  | chr (c : Char)
  | any
  | cls (neg : Bool) (items : List CItem)
  | seq (a b : Regex)
  | alt (a b : Regex)
  | star (a : Regex)
  | plus (a : Regex)
  | opt (a : Regex)
  | group (name : Option String) (a : Regex)
deriving DecidableEq, Repr

/-- Python `\w` (modelled on ASCII): letters, digits, underscore. -/
def isWordCharB (c : Char) : Bool :=
  c.isAlpha || c.isDigit || c == '_'

/-- Python `\s` (the common ASCII subset). -/
def isSpaceCharB (c : Char) : Bool :=
  c == ' ' || c == '\t' || c == '\n' || c == '\r'

/-- Does character `c` match one class item? -/
def citemMatches (c : Char) : CItem → Bool
  | .chr d => c == d
  | .rng a b => a ≤ c && c ≤ b
  | .word => isWordCharB c
  | .digit => c.isDigit
  | .space => isSpaceCharB c

/-- Does `c` match the class `[items]` (negated when `neg`)? -/
def clsMatches (neg : Bool) (items : List CItem) (c : Char) : Bool :=
  (items.any (citemMatches c)) != neg

/-- Backtracking iteration for `star`: at most `n` strictly consuming
iterations of the body `f`, greedy alternatives first, then the empty
iteration.  Each outcome is (remaining input, captures). -/
def starIter (f : List Char → List (List Char × Caps)) :
    Nat → List Char → List (List Char × Caps)
  | 0, cs => [(cs, [])]
  | n + 1, cs =>
      (((f cs).filter (fun p => decide (p.1.length < cs.length))).flatMap
        (fun p => (starIter f n p.1).map (fun q => (q.1, p.2 ++ q.2))))
      ++ [(cs, [])]

/-- All ways `r` can match a prefix of `cs`: list of (remaining input,
captures), preferred alternatives first.  This models Python `re`
backtracking on the supported fragment; a full anchored match is an outcome
with empty remainder. -/
def Regex.mtch : Regex → List Char → List (List Char × Caps)
  | .emp, cs => [(cs, [])]
  | .chr c, cs =>
      match cs with
      | [] => []
      | c' :: rest => if c' = c then [(rest, [])] else []
  | .any, cs =>
      match cs with
      | [] => []
      | c' :: rest => if c' = '\n' then [] else [(rest, [])]
  | .cls neg items, cs =>
      match cs with
      | [] => []
      | c' :: rest => if clsMatches neg items c' then [(rest, [])] else []
  | .seq a b, cs =>
      (a.mtch cs).flatMap (fun p => (b.mtch p.1).map (fun q => (q.1, p.2 ++ q.2)))
  | .alt a b, cs => a.mtch cs ++ b.mtch cs
  | .star a, cs => starIter a.mtch cs.length cs
  | .plus a, cs =>
      (a.mtch cs).flatMap
        (fun p => (starIter a.mtch p.1.length p.1).map (fun q => (q.1, p.2 ++ q.2)))
  | .opt a, cs => a.mtch cs ++ [(cs, [])]
  | .group name a, cs =>
      (a.mtch cs).map
        (fun p =>
          (p.1,
            p.2 ++
              match name with
              | some n => [(n, (cs.take (cs.length - p.1.length)).asString)]
              | none => []))

/-- Model of `self.path_regex.search(path)` for a compiled `^...$` regex:
the first fully consuming outcome, as its `groupdict`-style capture list. -/
def regexFullMatch (r : Regex) (path : String) : Option Caps :=
  ((r.mtch path.toList).find? (fun p => p.1.isEmpty)).map (fun p => p.2)

/-! ## Model of the two placeholder rewrites of `MountedResource.path_regex`

`mounted.py` builds the path regex with two `re.sub` passes:

    identifier         = r"\x7b(?!.*\d+.*)(\w+)\x7d"
    identifier_with_re = r"\x7b(?!.*\d+.*)(\w+):(.*)\x7d"

Both are modelled as character-level scans.  The negative lookahead
`(?!.*\d+.*)` sits right after the opening brace, so a placeholder is only
rewritten when no digit occurs anywhere in the remainder of the string. -/

/-- Try to read a plain placeholder at a position just after an opening
brace: returns (name, remainder after the closing brace).  Mirrors matching
`(?!.*\d+.*)(\w+)\x7d` at this position. -/
def subIdentAt? (rest : List Char) : Option (List Char × List Char) :=
  if rest.any (fun c => c.isDigit) then none
  else
    match rest.span isWordCharB with
    | (name, r2) =>
      if name.isEmpty then none
      else
        match r2 with
        | '}' :: r3 => some (name, r3)
        | _ => none

/-- Try to read a regex placeholder at a position just after an opening
brace: returns (name, supplied regex, remainder).  The `(.*)` of
`identifier_with_re` is greedy, so the supplied regex extends to the last
closing brace in the remainder of the string. -/
def subIdentReAt? (rest : List Char) : Option (List Char × List Char × List Char) :=
  if rest.any (fun c => c.isDigit) then none
  else
    match rest.span isWordCharB with
    | (name, r2) =>
      if name.isEmpty then none
      else
        match r2 with
        | ':' :: r3 =>
            match r3.reverse.findIdx? (fun c => c = '}') with
            | none => none
            | some j =>
                let lastIdx := r3.length - 1 - j
                some (name, r3.take lastIdx, r3.drop (lastIdx + 1))
        | _ => none

/-- `re.sub` of the `identifier` pattern: left-to-right scan, replacements
are not rescanned.  `fuel` bounds the number of steps (each step consumes at
least one input character). -/
def reSubIdentifier (repl : List Char → List Char) : Nat → List Char → List Char
  | 0, cs => cs
  | _ + 1, [] => []
  | fuel + 1, '{' :: rest =>
      match subIdentAt? rest with
      | some (name, r3) => repl name ++ reSubIdentifier repl fuel r3
      | none => '{' :: reSubIdentifier repl fuel rest
  | fuel + 1, c :: rest => c :: reSubIdentifier repl fuel rest

/-- `re.sub` of the `identifier_with_re` pattern. -/
def reSubIdentifierWithRe (repl : List Char → List Char → List Char) :
    Nat → List Char → List Char
  | 0, cs => cs
  | _ + 1, [] => []
  | fuel + 1, '{' :: rest =>
      match subIdentReAt? rest with
      | some (name, re2, r3) => repl name re2 ++ reSubIdentifierWithRe repl fuel r3
      | none => '{' :: reSubIdentifierWithRe repl fuel rest
  | fuel + 1, c :: rest => c :: reSubIdentifierWithRe repl fuel rest

/-- Replacement `(?P<\1>[\w-]+)` of the first rewrite. -/
def identRegexRepl (name : List Char) : List Char :=
  "(?P<".toList ++ name ++ ">[\\w-]+)".toList

/-- Replacement `(?P<\1>\2)` of the second rewrite. -/
def identWithReRegexRepl (name re2 : List Char) : List Char :=
  "(?P<".toList ++ name ++ ['>'] ++ re2 ++ [')']

/-- Replacement `\x7b\1\x7d` used when building the format string. -/
def identFmtRepl (name : List Char) : List Char :=
  '{' :: (name ++ ['}'])

/-- Replacement `\x7b\1\x7d` (second rewrite) for the format string. -/
def identWithReFmtRepl (name _re2 : List Char) : List Char :=
  '{' :: (name ++ ['}'])

namespace MountedResource

/-- The leading-slash normalisation both `path_regex` and `format_string`
perform first. -/
def pathWithSlash (path : String) : String :=
  if path.toList.head? = some '/' then path else "/" ++ path

/-- The regex source string `path_regex` hands to `re.compile`:
`"^" + rewritten + "$"`. -/
def path_regex_source (path : String) : String :=
  let cs := (pathWithSlash path).toList
  let s1 := reSubIdentifier identRegexRepl (cs.length + 1) cs
  let s2 := reSubIdentifierWithRe identWithReRegexRepl (s1.length + 1) s1
  ('^' :: (s2 ++ ['$'])).asString

/-- `MountedResource.format_string`: the same rewrites with `\x7b\1\x7d`
replacements and no anchors. -/
def format_string (path : String) : String :=
  let cs := (pathWithSlash path).toList
  let s1 := reSubIdentifier identFmtRepl (cs.length + 1) cs
  let s2 := reSubIdentifierWithRe identWithReFmtRepl (s1.length + 1) s1
  s2.asString

end MountedResource

/-! ## Model of `re.compile` on the generated regex sources

The parser accepts the constructs that rewritten path patterns produce:
literal characters (including braces that are not valid counted
quantifiers, which Python treats literally), `.`, escapes, character
classes, `( )` `(?:` `(?P<name>` groups, alternation, and `+ * ?`.
Counted quantifiers, lookarounds and anchors in the middle of the pattern
are outside the modelled fragment (`none`).  Duplicate group names are
rejected, as `re.compile` does. -/

/-- Items of a character class, up to the closing bracket (returned
remainder is past the bracket). -/
def parseCItems : Nat → List Char → Option (List CItem × List Char)
  | 0, _ => none
  | _ + 1, [] => none
  | _ + 1, ']' :: rest => some ([], rest)
  | fuel + 1, '\\' :: c :: rest =>
      if c = 'w' then (parseCItems fuel rest).map (fun p => (CItem.word :: p.1, p.2))
      else if c = 'd' then (parseCItems fuel rest).map (fun p => (CItem.digit :: p.1, p.2))
      else if c = 's' then (parseCItems fuel rest).map (fun p => (CItem.space :: p.1, p.2))
      else if c.isAlpha || c.isDigit then none
      else (parseCItems fuel rest).map (fun p => (CItem.chr c :: p.1, p.2))
  | fuel + 1, a :: '-' :: b :: rest =>
      if b = ']' then some ([CItem.chr a, CItem.chr '-'], rest)
      else if b = '\\' then none
      else (parseCItems fuel rest).map (fun p => (CItem.rng a b :: p.1, p.2))
  | fuel + 1, a :: rest =>
      (parseCItems fuel rest).map (fun p => (CItem.chr a :: p.1, p.2))

/-- Is brace content a valid counted quantifier body (`m`, `m,`, `,n`,
`m,n`)? -/
def quantifierShaped (content : List Char) : Bool :=
  match content.span (fun c => c.isDigit) with
  | (ds, []) => !ds.isEmpty
  | (ds, ',' :: rest2) => rest2.all (fun c => c.isDigit) && (!ds.isEmpty || !rest2.isEmpty)
  | _ => false

/-- Alternation tree `r1|r2|...` (left-preferred, as in Python). -/
def Regex.altList : List Regex → Regex
  | [] => .emp
  | [r] => r
  | r :: rest => .alt r (Regex.altList rest)

/-- Concatenation `r1 r2 ...`. -/
def Regex.seqList : List Regex → Regex
  | [] => .emp
  | [r] => r
  | r :: rest => .seq r (Regex.seqList rest)

/-- One frame of the regex parser: the group being parsed (kind `none`
marks the top level, `some gname` an open group), finished alternatives and
the atoms of the current sequence, both in reverse order. -/
structure PFrame where
  kind : Option (Option String)
  alts : List Regex
  atoms : List Regex

/-- The regex of a finished frame. -/
def PFrame.close (f : PFrame) : Regex :=
  Regex.altList (f.alts.reverse ++ [Regex.seqList f.atoms.reverse])

/-- Iterative body parser; `fuel` bounds the number of steps (each step
consumes at least one character). -/
def parseLoop : Nat → List PFrame → List Char → Option Regex
  | 0, _, _ => none
  | _ + 1, [], _ => none
  | _ + 1, f :: outer, [] =>
      match f.kind, outer with
      | none, [] => some f.close
      | _, _ => none
  | fuel + 1, f :: outer, '.' :: rest =>
      parseLoop fuel ({ f with atoms := Regex.any :: f.atoms } :: outer) rest
  | fuel + 1, f :: outer, '|' :: rest =>
      parseLoop fuel
        ({ f with alts := Regex.seqList f.atoms.reverse :: f.alts, atoms := [] } :: outer) rest
  | fuel + 1, f :: outer, '+' :: rest =>
      match f.atoms with
      | [] => none
      | a :: as2 => parseLoop fuel ({ f with atoms := Regex.plus a :: as2 } :: outer) rest
  | fuel + 1, f :: outer, '*' :: rest =>
      match f.atoms with
      | [] => none
      | a :: as2 => parseLoop fuel ({ f with atoms := Regex.star a :: as2 } :: outer) rest
  | fuel + 1, f :: outer, '?' :: rest =>
      match f.atoms with
      | [] => none
      | a :: as2 => parseLoop fuel ({ f with atoms := Regex.opt a :: as2 } :: outer) rest
  | fuel + 1, f :: outer, '\\' :: c :: rest =>
      if c = 'w' then
        parseLoop fuel ({ f with atoms := Regex.cls false [CItem.word] :: f.atoms } :: outer) rest
      else if c = 'd' then
        parseLoop fuel ({ f with atoms := Regex.cls false [CItem.digit] :: f.atoms } :: outer) rest
      else if c = 's' then
        parseLoop fuel ({ f with atoms := Regex.cls false [CItem.space] :: f.atoms } :: outer) rest
      else if c.isAlpha || c.isDigit then none
      else parseLoop fuel ({ f with atoms := Regex.chr c :: f.atoms } :: outer) rest
  | _ + 1, _ :: _, ['\\'] => none
  | fuel + 1, f :: outer, '[' :: rest =>
      let negp := match rest with
        | '^' :: r => (true, r)
        | _ => (false, rest)
      match parseCItems (negp.2.length + 1) negp.2 with
      | some (items, rest3) =>
          parseLoop fuel ({ f with atoms := Regex.cls negp.1 items :: f.atoms } :: outer) rest3
      | none => none
  | fuel + 1, f :: outer, '(' :: '?' :: 'P' :: '<' :: rest =>
      (match rest.span isWordCharB with
        | (name, '>' :: rest2) =>
            if name.isEmpty then none
            else parseLoop fuel (PFrame.mk (some (some name.asString)) [] [] :: f :: outer) rest2
        | _ => none)
  | fuel + 1, f :: outer, '(' :: '?' :: ':' :: rest =>
      parseLoop fuel (PFrame.mk (some none) [] [] :: f :: outer) rest
  | _ + 1, _ :: _, '(' :: '?' :: _ => none
  | fuel + 1, f :: outer, '(' :: rest =>
      parseLoop fuel (PFrame.mk (some none) [] [] :: f :: outer) rest
  | fuel + 1, f :: outer, ')' :: rest =>
      (match f.kind, outer with
        | some gname, g :: outer2 =>
            parseLoop fuel ({ g with atoms := Regex.group gname f.close :: g.atoms } :: outer2) rest
        | _, _ => none)
  | _ + 1, _ :: _, '^' :: _ => none
  | _ + 1, _ :: _, '$' :: _ => none
  | fuel + 1, f :: outer, '{' :: rest =>
      let content := rest.takeWhile (fun c => c ≠ '}')
      if (rest.drop content.length).head? = some '}' && quantifierShaped content then none
      else parseLoop fuel ({ f with atoms := Regex.chr '{' :: f.atoms } :: outer) rest
  | fuel + 1, f :: outer, c :: rest =>
      parseLoop fuel ({ f with atoms := Regex.chr c :: f.atoms } :: outer) rest

/-- Names of the named groups of a regex, in syntactic order. -/
def Regex.groupNames : Regex → List String
  | .emp | .chr _ | .any | .cls _ _ => []
  | .seq a b | .alt a b => a.groupNames ++ b.groupNames
  | .star a | .plus a | .opt a => a.groupNames
  | .group (some n) a => n :: a.groupNames
  | .group none a => a.groupNames

/-- Model of `re.compile` for the generated `^...$` sources: parses the
body, rejecting unsupported constructs and duplicate group names. -/
def regexParse (s : String) : Option Regex :=
  match s.toList with
  | '^' :: rest =>
      if rest.getLast? = some '$' then
        match parseLoop (rest.length + 2) [PFrame.mk none [] []] rest.dropLast with
        | some r => if r.groupNames.Nodup then some r else none
        | none => none
      else none
  | _ => none

namespace MountedResource

/-- `MountedResource.path_regex`: compile the rewritten pattern.  In the
source the compilation happens eagerly in `__init__` (fail fast); here a
pattern outside the modelled regex fragment gives `none`. -/
def path_regex (path : String) : Option Regex :=
  regexParse (path_regex_source path)

end MountedResource

/-! ## Structured view of compiled patterns -/

/-- A token of a path pattern: a literal character, a plain `\x7bname\x7d`
placeholder, or a `\x7bname:regex\x7d` placeholder with its compiled
regex. -/
inductive Tok where
  | lit (c : Char)
  | var (n : String)
  | varRe (n : String) (r : Regex)
deriving DecidableEq, Repr

/-- The regex a single token compiles to. -/
def tokRegex : Tok → Regex
  | .lit c => .chr c
  | .var n => .group (some n) (.plus (.cls false [.word, .chr '-']))
  | .varRe n r => .group (some n) r

/-- The regex a token list compiles to. -/
def toksRegex (toks : List Tok) : Regex :=
  Regex.seqList (toks.map tokRegex)

/-- The format-string characters a single token rewrites to. -/
def tokFmtChars : Tok → List Char
  | .lit c => [c]
  | .var n => '{' :: (n.toList ++ ['}'])
  | .varRe n _ => '{' :: (n.toList ++ ['}'])

/-- The format-string characters of a token list. -/
def toksFmtChars (toks : List Tok) : List Char :=
  (toks.map tokFmtChars).flatten

/-! ## Model of `str.format` and `MountedResource.format_path` -/

/-- First value bound to a name in a capture list (Python group names are
unique within a pattern, so first and last coincide). -/
def capsLookup (env : Caps) (n : String) : Option String :=
  (env.find? (fun p => p.1 = n)).map (fun p => p.2)

/-- Scanner state of the `str.format` model: outside a replacement field,
or inside one with the name characters read so far (reversed). -/
inductive FMode where
  | out
  | inField (acc : List Char)

/-- Model of `str.format(**env)` restricted to plain `\x7bname\x7d`
replacement fields.  `none` models the exceptions `str.format` raises: a
missing key, a stray brace, or a field with a conversion or format spec. -/
def pyFormatAux (env : Caps) : FMode → List Char → Option (List Char)
  | .out, [] => some []
  | .out, '{' :: '{' :: cs => (pyFormatAux env .out cs).map (fun r => '{' :: r)
  | .out, '{' :: cs => pyFormatAux env (.inField []) cs
  | .out, '}' :: '}' :: cs => (pyFormatAux env .out cs).map (fun r => '}' :: r)
  | .out, '}' :: _ => none
  | .out, c :: cs => (pyFormatAux env .out cs).map (fun r => c :: r)
  | .inField acc, '}' :: cs =>
      match capsLookup env acc.reverse.asString with
      | some v => (pyFormatAux env .out cs).map (fun r => v.toList ++ r)
      | none => none
  | .inField _, '{' :: _ => none
  | .inField _, ':' :: _ => none
  | .inField _, '!' :: _ => none
  | .inField acc, c :: cs => pyFormatAux env (.inField (c :: acc)) cs
  | .inField _, [] => none

/-- `fmt.format(**env)` as a `String` function. -/
def pyFormat (fmt : String) (env : Caps) : Option String :=
  (pyFormatAux env .out fmt.toList).map (fun r => r.asString)

/-- Failure modes of `format_path`: an exception escaping `str.format`
(`KeyError` or `ValueError`), or the explicit
`ValueError("Invalid substitions: ...")` raised when the generated path
does not re-match `path_regex`. -/
inductive FormatPathErr where
  | formatRaised
  | invalidSubstitutions
  | badPattern
deriving DecidableEq, Repr

namespace MountedResource

/-- `MountedResource.format_path`: format the path, then require that the
result still matches `path_regex`.  `badPattern` is unreachable for
resources that were mounted (compilation is checked in `__init__`). -/
def format_path (path : String) (args : Caps) : Except FormatPathErr String :=
  match pyFormat (format_string path) args with
  | none => .error .formatRaised
  | some p =>
      match path_regex path with
      | none => .error .badPattern
      | some r =>
          if (regexFullMatch r p).isSome then .ok p
          else .error .invalidSubstitutions

end MountedResource

/-! ## Predicates used to reason about compiled patterns -/

/-- Does the regex contain no groups at all?  Supplied placeholder regexes
with nested groups would add extra `groupdict` entries; the round-trip and
characterisation theorems assume group-free placeholder regexes. -/
def Regex.noGroups : Regex → Bool
  | .emp | .chr _ | .any | .cls _ _ => true
  | .seq a b | .alt a b => a.noGroups && b.noGroups
  | .star a | .plus a | .opt a => a.noGroups
  | .group _ _ => false

/-- The regex accepts the whole chunk (some backtracking outcome consumes
everything). -/
def RAccepts (r : Regex) (cs : List Char) : Prop :=
  ∃ ic, ([], ic) ∈ r.mtch cs

/-- A word or hyphen character, i.e. what `[\w-]` matches. -/
def wordHyphen (c : Char) : Bool :=
  isWordCharB c || c == '-'

/-- Declarative matching of a token list against a path, following the
specification wording: literal characters match verbatim, a plain
placeholder matches one or more word/hyphen characters and captures them
under its name, a regex placeholder matches its supplied regex; the whole
path must be consumed (anchoring). -/
inductive SplitMatch : List Tok → List Char → Caps → Prop
  | nil : SplitMatch [] [] []
  | lit {c : Char} {ts cs caps} :
      SplitMatch ts cs caps → SplitMatch (.lit c :: ts) (c :: cs) caps
  | var {n ts chunk cs caps} :
      chunk ≠ [] → (∀ c ∈ chunk, wordHyphen c = true) →
      SplitMatch ts cs caps →
      SplitMatch (.var n :: ts) (chunk ++ cs) ((n, chunk.asString) :: caps)
  | varRe {n r ts chunk cs caps} :
      RAccepts r chunk → SplitMatch ts cs caps →
      SplitMatch (.varRe n r :: ts) (chunk ++ cs) ((n, chunk.asString) :: caps)

/-- Well-formedness of one token for the round-trip theorems: literal
characters are not braces (so the format string has no stray fields),
placeholder names are nonempty word strings, and supplied regexes are
group-free. -/
def tokWF : Tok → Bool
  | .lit c => !(c = '{' || c = '}')
  | .var n => !n.toList.isEmpty && n.toList.all isWordCharB
  | .varRe n r => (!n.toList.isEmpty && n.toList.all isWordCharB) && r.noGroups

/-- The placeholder names of a token list, in order. -/
def toksVarNames : List Tok → List String
  | [] => []
  | .lit _ :: ts => toksVarNames ts
  | .var n :: ts => n :: toksVarNames ts
  | .varRe n _ :: ts => n :: toksVarNames ts

/-- Iterated application of a matcher body, each iteration strictly
consuming: the reachability relation behind `starIter`. -/
inductive Iters (f : List Char → List (List Char × Caps)) :
    List Char → List Char → Caps → Prop
  | nil (cs) : Iters f cs cs []
  | cons {cs rest1 rest caps1 caps2} :
      (rest1, caps1) ∈ f cs → rest1.length < cs.length →
      Iters f rest1 rest caps2 → Iters f cs rest (caps1 ++ caps2)

/-! ## Response and exception model shared by the handler claims -/

/-- The observable parts of a webob response. -/
structure Resp where
  status : Nat := 200
  content_type : String := ""
  charset : String := ""
  body : String := ""
  /-- marks instances of `DebugHTTPInternalServerError` -/
  isDebugServerError : Bool := false
deriving DecidableEq, Repr

/-- Ordinary (non-HTTP, non-aggregate) Python exceptions. -/
inductive BaseExc where
  | valueError (msg : String)
  | keyError (msg : String)
  | other (msg : String)
deriving DecidableEq, Repr

/-- Exceptions of the handler pipeline: `WSGIHTTPException` responses,
ordinary exceptions, and `RequestFinishedException` aggregates. -/
inductive PyExc where
  | http (r : Resp)
  | base (e : BaseExc)
  | requestFinished (excs : List BaseExc)
deriving DecidableEq, Repr

/-- `webob.exc.HTTPInternalServerError()`. -/
def HTTPInternalServerError : Resp := { status := 500 }

/-- `DebugHTTPInternalServerError(traceback)`. -/
def DebugHTTPInternalServerErrorResp (tb : String) : Resp :=
  { status := 500, body := tb, isDebugServerError := true }

/-! ## C1: resource resolution (`resource_finder`, `MountedResource.match`) -/

/-- A mounted resource as the finder sees it: the compiled path regex plus
the allowed-method set (empty means any method). -/
structure MountedResourceRec where
  name : String
  methods : List String
  regex : Regex
deriving DecidableEq, Repr

/-- `MountedResource.match`: `None` when the method set is non-empty and
excludes the method, otherwise the anchored regex match (its urlvars). -/
def MountedResourceRec.match' (mr : MountedResourceRec) (method path : String) : Option Caps :=
  if !mr.methods.isEmpty && !(mr.methods.contains method) then none
  else regexFullMatch mr.regex path

/-- `MountedResource.__init__` compiles the pattern eagerly (fail fast). -/
def mkMountedResource (name path : String) (methods : List String) :
    Option MountedResourceRec :=
  (MountedResource.path_regex path).map (fun r => MountedResourceRec.mk name methods r)

/-- Modelled from the spec: `Application.find_mounted_resource` lives in
`tangled/web/app.py`, which is not among the sources.  Spec section 4.1:
resolution iterates mounted resources in insertion order and the first
match wins; with `ignore_method=True` (spec section 9: second pass is
path-only) the method check is skipped. -/
def find_mounted_resource (rs : List MountedResourceRec) (method path : String)
    (ignoreMethod : Bool) : Option (MountedResourceRec × Caps) :=
  match rs with
  | [] => none
  | mr :: rest =>
      match (if ignoreMethod then regexFullMatch mr.regex path else mr.match' method path) with
      | some urlvars => some (mr, urlvars)
      | none => find_mounted_resource rest method path ignoreMethod

/-- Outcome of the resolution step of `resource_finder` (handlers.py
lines 243-252): a match, or an aborted request with a status code. -/
inductive ResolveOutcome where
  | found (mr : MountedResourceRec) (urlvars : Caps)
  | abort (status : Nat)
deriving DecidableEq, Repr

/-- The resolution step of `resource_finder`: exact lookup, then a
path-only lookup to distinguish 405 from 404. -/
def resource_finder_resolve (rs : List MountedResourceRec) (method path : String) :
    ResolveOutcome :=
  match find_mounted_resource rs method path false with
  | some (mr, urlvars) => .found mr urlvars
  | none =>
      match find_mounted_resource rs method path true with
      | some _ => .abort 405
      | none => .abort 404

/-! ## C3 and C10: `get_exc_response` and `exc_handler` -/

/-- Outcome of invoking a wrapped sub-handler (the error-resource rendering
path, or the CORS handler): a response, a raised `WSGIHTTPException`, or
another raised exception. -/
inductive RenderOutcome where
  | ok (r : Resp)
  | raiseHttp (r : Resp)
  | raiseBase (e : BaseExc)

/-- The application state `get_exc_response` consults.  The two handler
invocations are oracles: `renderErrorResource` stands for
`handler(app, request)` of the error-resource branch (the main handler,
CORS-wrapped when CORS is enabled, after the request has been pointed at
the error resource), and `corsApply` for the CORS-only branch. -/
structure ExcApp where
  debug : Bool := false
  testing : Bool := false
  corsEnabled : Bool := false
  errorResource : Bool := false
  renderErrorResource : Resp → RenderOutcome := fun r => .ok r
  corsApply : Resp → RenderOutcome := fun r => .ok r

/-- `get_exc_response` (handlers.py lines 64-147).  The whole body is one
`try` block whose `except Exception` logs and falls through to
`return original_response`; inside the error-resource branch a raised
`WSGIHTTPException` is logged and returned as the response.  The debug 404
listing only prints, so it is not modelled. -/
def get_exc_response (app : ExcApp) (original : Resp) : Resp :=
  let tryBlock : Except PyExc Resp :=
    if original.status > 400 ∧ app.errorResource = true ∧
        original.isDebugServerError = false then
      match app.renderErrorResource original with
      | .ok r => .ok r
      | .raiseHttp e => .ok e
      | .raiseBase e => .error (.base e)
    else if app.corsEnabled then
      match app.corsApply original with
      | .ok r => .ok r
      | .raiseHttp e => .error (.http e)
      | .raiseBase e => .error (.base e)
    else
      .ok original
  match tryBlock with
  | .ok r => r
  | .error _ => original

/-- `exc_handler` (handlers.py lines 48-61): catches `WSGIHTTPException`
as the response, converts any other exception to a (debug) server error,
and finishes through `get_exc_response`.  `debug.pdb` only drops into the
debugger, so it is not modelled. -/
def exc_handler (app : ExcApp) (next_handler : Except PyExc Resp) : Resp :=
  match next_handler with
  | .ok r => get_exc_response app r
  | .error (.http e) => get_exc_response app e
  | .error _ =>
      get_exc_response app
        (if app.debug then DebugHTTPInternalServerErrorResp "traceback" else
          HTTPInternalServerError)

/-! ## C6: finished callbacks -/

/-- What a registered finished callback does when invoked. -/
inductive CbOutcome where
  | ok
  | raiseHttp (r : Resp)
  | raiseBase (e : BaseExc)
deriving DecidableEq, Repr

/-- The exception one callback contributes: raising a `WSGIHTTPException`
is rewrapped as a `ValueError` by the inner `try` of
`Request._call_finished_callbacks`. -/
def cbCollected : CbOutcome → Option BaseExc
  | .ok => none
  | .raiseHttp _ =>
      some (.valueError "WSGIHTTPExceptions cannot be raised in finished callbacks")
  | .raiseBase e => some e

/-- `Request._call_finished_callbacks` (request.py lines 270-288): call
every callback in insertion order, collect the exceptions, and raise one
`RequestFinishedException` afterwards when any were collected. -/
def Request.call_finished_callbacks (cbs : List CbOutcome) : Except PyExc Unit :=
  match cbs.filterMap cbCollected with
  | [] => .ok ()
  | e :: es => .error (.requestFinished (e :: es))

/-- `request_finished_handler` (handlers.py lines 150-162): skip static
requests, otherwise run the callbacks and return `request.response`. -/
def request_finished_handler (isStatic : Bool) (cbs : List CbOutcome) (response : Resp) :
    Except PyExc Resp :=
  if isStatic then .ok response
  else
    match Request.call_finished_callbacks cbs with
    | .ok _ => .ok response
    | .error e => .error e

/-- Modelled from the spec: the chain assembly lives in `tangled/web/app.py`,
which is not among the sources.  Spec section 5: finished callbacks execute
synchronously at the end of the exception-boundary scope, so the boundary
wraps downstream processing followed by `request_finished_handler`. -/
def boundary_with_callbacks (app : ExcApp) (downstream : Except PyExc Resp)
    (isStatic : Bool) (cbs : List CbOutcome) : Resp :=
  exc_handler app (downstream.bind (request_finished_handler isStatic cbs))

/-! ## C5: `tweaker` -/

/-- The request fields `tweaker` reads or writes. -/
structure TweakReq where
  method : String
  params : List (String × String)
  accept : String
  path_info : String
deriving DecidableEq, Repr

/-- The settings and registry lookups `tweaker` consults.
`reprContentType ext` models
`app.get(Representation, ext).content_type` (None when no representation
is registered for the extension). -/
structure TweakApp where
  debug : Bool := false
  tunnel_over_post : List String := []
  set_accept_from_ext : Bool := false
  reprContentType : String → Option String := fun _ => none

/-- First value bound to a key in the request parameters. -/
def lookupParam (ps : List (String × String)) (k : String) : Option String :=
  (ps.find? (fun p => p.1 = k)).map (fun p => p.2)

/-- A parameter value that is truthy in Python (present and non-empty). -/
def truthyParam (ps : List (String × String)) (k : String) : Option String :=
  match lookupParam ps k with
  | some v => if v = "" then none else some v
  | none => none

/-- Model of `os.path.splitext`: split at the last dot of the basename,
unless every character before it in the basename is a dot. -/
def splitext (s : String) : String × String :=
  let cs := s.toList
  let sepIdx : Option Nat := (cs.reverse.findIdx? (fun c => c = '/')).map
    (fun j => cs.length - 1 - j)
  let dotIdx : Option Nat := (cs.reverse.findIdx? (fun c => c = '.')).map
    (fun j => cs.length - 1 - j)
  match dotIdx with
  | none => (s, "")
  | some d =>
      let base := match sepIdx with
        | none => 0
        | some i => i + 1
      if (match sepIdx with | some i => decide (i < d) | none => true) &&
          ((cs.drop base).take (d - base)).any (fun c => c ≠ '.') then
        ((cs.take d).asString, (cs.drop d).asString)
      else (s, "")

/-- Python `str.lstrip(".")`. -/
def lstripDots (s : String) : String :=
  (s.toList.dropWhile (fun c => c = '.')).asString

/-- `tweaker` (handlers.py lines 177-222), up to calling the next handler.
The deletion of the reserved parameters from GET/POST and the CSRF header
copying for tunnelled DELETE only affect state not modelled here.  A raised
`request.abort(400, ...)` is the `Except.error` case. -/
def tweaker (app : TweakApp) (req : TweakReq) : Except Resp TweakReq :=
  let m := truthyParam req.params "$method"
  let acc := truthyParam req.params "$accept"
  let step1 : Except Resp TweakReq :=
    match m with
    | some method =>
        if req.method = "POST" ∧ app.tunnel_over_post.contains method then
          .ok { req with method := method }
        else if app.debug then
          .ok { req with method := method }
        else
          .error { status := 400 }
    | none => .ok req
  step1.bind (fun req1 =>
    match acc with
    | some a => .ok { req1 with accept := a }
    | none =>
        if app.set_accept_from_ext then
          let rootExt := splitext req1.path_info
          if rootExt.2 = "" then .ok req1
          else
            match app.reprContentType (lstripDots rootExt.2) with
            | some ct => .ok { req1 with accept := ct, path_info := rootExt.1 }
            | none => .ok req1
        else .ok req1)

/-! ## C7: the `main` handler -/

/-- What the bound resource method returns. -/
inductive RetData where
  | response (r : Resp)
  | noneData
  | value (v : String)
deriving DecidableEq, Repr

/-- The content of a representation: renderable text, or a complete
response that bypasses rendering. -/
inductive ReprContent where
  | text (s : String)
  | resp (r : Resp)
deriving DecidableEq, Repr

/-- A built representation. -/
structure ReprBuilt where
  content_type : String
  encoding : String
  content : ReprContent
deriving DecidableEq, Repr

/-- The state the `main` handler consults.  `registry d` stands for
`app.get_required(Representation, d)` followed by constructing the
representation from the resource data (None models
`ComponentDoesNotExist`). -/
structure MainState where
  data : RetData
  response : Resp
  infoType : Option String
  response_content_type : String
  registry : String → Option ReprBuilt

/-- The differentiator `main` uses: the `@config`-pinned type when set,
otherwise the negotiated content type. -/
def mainDifferentiator (st : MainState) : String :=
  match st.infoType with
  | some t => t
  | none => st.response_content_type

/-- The `main` handler (handlers.py lines 291-352). -/
def mainHandler (st : MainState) : Except PyExc Resp :=
  match st.data with
  | .response r => .ok r
  | d =>
      if 300 ≤ st.response.status ∧ st.response.status < 400 ∧ d = RetData.noneData then
        .ok st.response
      else
        match st.registry (mainDifferentiator st) with
        | none => .error (.base (.other "ComponentDoesNotExist"))
        | some representation =>
            match representation.content with
            | .resp r => .ok r
            | .text s =>
                .ok { st.response with
                        content_type := representation.content_type,
                        charset := representation.encoding,
                        body := s }

/-! ## C8: `HandlerWrapper.__call__` -/

/-- What a stage callable hands back to `HandlerWrapper.__call__`
(raised exceptions propagate through the wrapper unchanged). -/
inductive HandlerRet where
  | resp (r : Resp)
  | noneRet
  | otherRet (v : String)
deriving DecidableEq, Repr

/-- `HandlerWrapper.__call__` (handlers.py lines 365-369): raise
`ValueError` when the stage returned `None`, otherwise pass the value
through. -/
def HandlerWrapper.call (ret : Except PyExc HandlerRet) : Except PyExc HandlerRet :=
  ret.bind (fun v =>
    if v = HandlerRet.noneRet then .error (.base (.valueError "Handler returned None"))
    else .ok v)

/-! ## C9: default response status (`STATUS_MAP`, `Request.response`) -/

/-- `STATUS_MAP` (request.py lines 17-24), as the partial lookup
`dict.__getitem__` performs. -/
def STATUS_MAP : String → Option Nat := fun m =>
  if m = "DELETE" then some 204
  else if m = "GET" then some 200
  else if m = "HEAD" then some 204
  else if m = "OPTIONS" then some 200
  else if m = "POST" then some 303
  else if m = "PUT" then some 204
  else none

/-- The status computation of the `Request.response` property (request.py
lines 62-68): a truthy `info.status` wins, otherwise
`STATUS_MAP[self.method]`, whose miss raises `KeyError`. -/
def Request.default_response_status (infoStatus : Option Nat) (method : String) :
    Except PyExc Nat :=
  match infoStatus with
  | some s => .ok s
  | none =>
      match STATUS_MAP method with
      | some s => .ok s
      | none => .error (.base (.keyError method))

/-! ## Concrete evaluations of the embedded definitions -/

example :
    regexFullMatch
      (.seq (.chr '/') (.group (some "id") (.plus (.cls false [.word, .chr '-']))))
      "/a-b" = some [("id", "a-b")] := by decide

example :
    regexFullMatch
      (.seq (.chr '/') (.group (some "id") (.plus (.cls false [.word, .chr '-']))))
      "/a/b" = none := by decide

example :
    MountedResource.path_regex "/widgets/\x7bid\x7d" =
      some (toksRegex [.lit '/', .lit 'w', .lit 'i', .lit 'd', .lit 'g', .lit 'e',
        .lit 't', .lit 's', .lit '/', .var "id"]) := by decide

example :
    MountedResource.format_string "/widgets/\x7bid\x7d" = "/widgets/\x7bid\x7d" := by decide

example :
    MountedResource.path_regex "/a/\x7bid:\\d+\x7d" =
      some (toksRegex [.lit '/', .lit 'a', .lit '/',
        .varRe "id" (.plus (.cls false [.digit]))]) := by decide

example :
    MountedResource.path_regex "/pages/\x7bname\x7d/2" =
      some (toksRegex [.lit '/', .lit 'p', .lit 'a', .lit 'g', .lit 'e', .lit 's',
        .lit '/', .lit '{', .lit 'n', .lit 'a', .lit 'm', .lit 'e', .lit '}',
        .lit '/', .lit '2']) := by decide

example :
    MountedResource.format_path "/widgets/\x7bid\x7d" [("id", "a-b")] =
      .ok "/widgets/a-b" := rfl

example :
    MountedResource.format_path "/widgets/\x7bid\x7d" [("id", "a/b")] =
      .error .invalidSubstitutions := rfl

example :
    MountedResource.format_path "/pages/\x7bname\x7d/2" [] =
      .error .formatRaised := rfl

/-! # Lemmas

## Basic properties of the backtracking matcher -/

theorem starIter_suffix (f : List Char → List (List Char × Caps))
    (hf : ∀ cs p, p ∈ f cs → p.1 <:+ cs) :
    ∀ n cs p, p ∈ starIter f n cs → p.1 <:+ cs := by
  intro n
  induction n with
  | zero =>
      intro cs p hp
      simp only [starIter, List.mem_singleton] at hp
      subst hp
      exact List.suffix_refl _
  | succ n ih =>
      intro cs p hp
      simp only [starIter, List.mem_append, List.mem_flatMap, List.mem_map,
        List.mem_filter, List.mem_singleton] at hp
      rcases hp with ⟨q, ⟨hq, _⟩, w, hw, hpw⟩ | hp
      · subst hpw
        exact (ih q.1 w hw).trans (hf cs q hq)
      · subst hp
        exact List.suffix_refl _

theorem Regex.mtch_suffix : ∀ (r : Regex) (cs : List Char) (p : List Char × Caps),
    p ∈ r.mtch cs → p.1 <:+ cs := by
  intro r
  induction r with
  | emp =>
      intro cs p hp
      simp only [Regex.mtch, List.mem_singleton] at hp
      subst hp; exact List.suffix_refl _
  | chr c =>
      intro cs p hp
      match cs with
      | [] => simp [Regex.mtch] at hp
      | c' :: rest =>
          simp only [Regex.mtch] at hp
          split at hp
          · simp only [List.mem_singleton] at hp
            subst hp
            exact List.suffix_cons c' rest
          · simp at hp
  | any =>
      intro cs p hp
      match cs with
      | [] => simp [Regex.mtch] at hp
      | c' :: rest =>
          simp only [Regex.mtch] at hp
          split at hp
          · simp at hp
          · simp only [List.mem_singleton] at hp
            subst hp
            exact List.suffix_cons c' rest
  | cls neg items =>
      intro cs p hp
      match cs with
      | [] => simp [Regex.mtch] at hp
      | c' :: rest =>
          simp only [Regex.mtch] at hp
          split at hp
          · simp only [List.mem_singleton] at hp
            subst hp
            exact List.suffix_cons c' rest
          · simp at hp
  | seq a b iha ihb =>
      intro cs p hp
      simp only [Regex.mtch, List.mem_flatMap, List.mem_map] at hp
      rcases hp with ⟨q, hq, w, hw, hpw⟩
      subst hpw
      exact (ihb q.1 w hw).trans (iha cs q hq)
  | alt a b iha ihb =>
      intro cs p hp
      simp only [Regex.mtch, List.mem_append] at hp
      rcases hp with hp | hp
      · exact iha cs p hp
      · exact ihb cs p hp
  | star a iha =>
      intro cs p hp
      exact starIter_suffix a.mtch iha cs.length cs p hp
  | plus a iha =>
      intro cs p hp
      simp only [Regex.mtch, List.mem_flatMap, List.mem_map] at hp
      rcases hp with ⟨q, hq, w, hw, hpw⟩
      subst hpw
      exact (starIter_suffix a.mtch iha q.1.length q.1 w hw).trans (iha cs q hq)
  | opt a iha =>
      intro cs p hp
      simp only [Regex.mtch, List.mem_append, List.mem_singleton] at hp
      rcases hp with hp | hp
      · exact iha cs p hp
      · subst hp; exact List.suffix_refl _
  | group name a iha =>
      intro cs p hp
      simp only [Regex.mtch, List.mem_map] at hp
      rcases hp with ⟨q, hq, hpq⟩
      subst hpq
      exact iha cs q hq

theorem iters_length_le {f : List Char → List (List Char × Caps)}
    {cs rest : List Char} {caps : Caps} (h : Iters f cs rest caps) :
    rest.length ≤ cs.length := by
  induction h with
  | nil => exact Nat.le_refl _
  | cons _ hlt _ ih => exact ih.trans (Nat.le_of_lt hlt)

theorem starIter_mem_iters (f : List Char → List (List Char × Caps)) :
    ∀ n cs p, p ∈ starIter f n cs → Iters f cs p.1 p.2 := by
  intro n
  induction n with
  | zero =>
      intro cs p hp
      simp only [starIter, List.mem_singleton] at hp
      subst hp
      exact Iters.nil cs
  | succ n ih =>
      intro cs p hp
      simp only [starIter, List.mem_append, List.mem_flatMap, List.mem_map,
        List.mem_filter, decide_eq_true_eq, List.mem_singleton] at hp
      rcases hp with ⟨q, ⟨hq, hlt⟩, w, hw, hpw⟩ | hp
      · subst hpw
        exact Iters.cons hq hlt (ih q.1 w hw)
      · subst hp
        exact Iters.nil cs

theorem iters_mem_starIter {f : List Char → List (List Char × Caps)}
    {cs rest : List Char} {caps : Caps} (h : Iters f cs rest caps) :
    ∀ n, cs.length - rest.length ≤ n → (rest, caps) ∈ starIter f n cs := by
  induction h with
  | nil cs =>
      intro n _
      match n with
      | 0 => simp [starIter]
      | n + 1 => simp [starIter]
  | cons hq hlt hrest ih =>
      rename_i cs' rest1 rest' caps1 caps2
      intro n hn
      have hr : rest'.length ≤ rest1.length := iters_length_le hrest
      have hn1 : 1 ≤ n := by omega
      match n, hn1 with
      | n + 1, _ =>
          simp only [starIter, List.mem_append, List.mem_flatMap, List.mem_map,
            List.mem_filter, decide_eq_true_eq]
          refine Or.inl ⟨(rest1, caps1), ⟨hq, hlt⟩, (rest', caps2), ?_, rfl⟩
          exact ih n (by omega)

theorem mtch_star_iff {a : Regex} {cs rest : List Char} {caps : Caps} :
    (rest, caps) ∈ (Regex.star a).mtch cs ↔ Iters a.mtch cs rest caps := by
  constructor
  · intro h
    exact starIter_mem_iters a.mtch cs.length cs (rest, caps) h
  · intro h
    exact iters_mem_starIter h cs.length (Nat.sub_le _ _)

theorem mtch_plus_iff {a : Regex} {cs rest : List Char} {caps : Caps} :
    (rest, caps) ∈ (Regex.plus a).mtch cs ↔
      ∃ rest1 caps1 caps2, (rest1, caps1) ∈ a.mtch cs ∧
        Iters a.mtch rest1 rest caps2 ∧ caps = caps1 ++ caps2 := by
  constructor
  · intro h
    simp only [Regex.mtch, List.mem_flatMap, List.mem_map] at h
    rcases h with ⟨q, hq, w, hw, hpw⟩
    refine ⟨q.1, q.2, w.2, hq, ?_, ?_⟩
    · have := starIter_mem_iters a.mtch q.1.length q.1 w hw
      have hw1 : w.1 = rest := congrArg Prod.fst hpw
      rwa [hw1] at this
    · exact (congrArg Prod.snd hpw).symm
  · rintro ⟨rest1, caps1, caps2, hq, hit, rfl⟩
    simp only [Regex.mtch, List.mem_flatMap, List.mem_map]
    exact ⟨(rest1, caps1), hq, (rest, caps2),
      iters_mem_starIter hit rest1.length (Nat.sub_le _ _), rfl⟩

theorem iters_suffix {f : List Char → List (List Char × Caps)}
    (hfsuf : ∀ cs p, p ∈ f cs → p.1 <:+ cs) {cs rest : List Char} {caps : Caps}
    (h : Iters f cs rest caps) : rest <:+ cs := by
  induction h with
  | nil => exact List.suffix_refl _
  | cons hq _ _ ih => exact ih.trans (hfsuf _ _ hq)

theorem iters_append_ext {f : List Char → List (List Char × Caps)}
    (hf : ∀ cs rest caps ext, (rest, caps) ∈ f cs → (rest ++ ext, caps) ∈ f (cs ++ ext))
    {cs rest : List Char} {caps : Caps} (h : Iters f cs rest caps) (ext : List Char) :
    Iters f (cs ++ ext) (rest ++ ext) caps := by
  induction h with
  | nil cs => exact Iters.nil (cs ++ ext)
  | cons hq hlt _ ih =>
      rename_i cs' rest1 rest' caps1 caps2
      refine Iters.cons (hf _ _ _ ext hq) ?_ ih
      simp only [List.length_append]
      omega

theorem iters_drop_ext {f : List Char → List (List Char × Caps)}
    (hfdrop : ∀ cs rest caps ext, (rest ++ ext, caps) ∈ f (cs ++ ext) → (rest, caps) ∈ f cs)
    (hfsuf : ∀ cs p, p ∈ f cs → p.1 <:+ cs)
    {A B : List Char} {caps : Caps} (h : Iters f A B caps) :
    ∀ cs rest ext, A = cs ++ ext → B = rest ++ ext → Iters f cs rest caps := by
  induction h with
  | nil c0 =>
      intro cs rest ext hA hB
      have : cs = rest := by
        have hse : cs ++ ext = rest ++ ext := by rw [← hA, ← hB]
        exact List.append_cancel_right hse
      subst this
      exact Iters.nil cs
  | cons hq hlt hrest ih =>
      rename_i cs' rest1 rest' caps1 caps2
      intro cs rest ext hA hB
      have hBsuf : rest' <:+ rest1 := iters_suffix hfsuf hrest
      have hext : ext <:+ rest1 := by
        refine List.IsSuffix.trans ?_ hBsuf
        rw [hB]
        exact List.suffix_append rest ext
      obtain ⟨mid1, hmid⟩ := hext
      subst hA hB
      rw [← hmid] at hq hlt
      have hq' : (mid1, caps1) ∈ f cs := hfdrop _ _ _ _ hq
      have hlt' : mid1.length < cs.length := by
        simp only [List.length_append] at hlt
        omega
      exact Iters.cons hq' hlt' (ih mid1 rest ext hmid.symm rfl)

theorem Regex.mtch_append_ext :
    ∀ (r : Regex) (cs rest : List Char) (caps : Caps) (ext : List Char),
      (rest, caps) ∈ r.mtch cs → (rest ++ ext, caps) ∈ r.mtch (cs ++ ext) := by
  intro r
  induction r with
  | emp =>
      intro cs rest caps ext h
      simp only [Regex.mtch, List.mem_singleton, Prod.mk.injEq] at h ⊢
      exact ⟨by rw [h.1], h.2⟩
  | chr c =>
      intro cs rest caps ext h
      match cs with
      | [] => simp [Regex.mtch] at h
      | c' :: cs' =>
          simp only [Regex.mtch] at h
          split at h
          · simp only [List.mem_singleton, Prod.mk.injEq] at h
            obtain ⟨h1, h2⟩ := h
            subst h1; subst h2
            simp only [List.cons_append, Regex.mtch]
            split
            · simp
            · simp_all
          · simp at h
  | any =>
      intro cs rest caps ext h
      match cs with
      | [] => simp [Regex.mtch] at h
      | c' :: cs' =>
          simp only [Regex.mtch] at h
          split at h
          · simp at h
          · simp only [List.mem_singleton, Prod.mk.injEq] at h
            obtain ⟨h1, h2⟩ := h
            subst h1; subst h2
            simp only [List.cons_append, Regex.mtch]
            split
            · simp_all
            · simp
  | cls neg items =>
      intro cs rest caps ext h
      match cs with
      | [] => simp [Regex.mtch] at h
      | c' :: cs' =>
          simp only [Regex.mtch] at h
          split at h
          · simp only [List.mem_singleton, Prod.mk.injEq] at h
            obtain ⟨h1, h2⟩ := h
            subst h1; subst h2
            simp only [List.cons_append, Regex.mtch]
            split
            · simp
            · simp_all
          · simp at h
  | seq a b iha ihb =>
      intro cs rest caps ext h
      simp only [Regex.mtch, List.mem_flatMap, List.mem_map] at h ⊢
      rcases h with ⟨q, hq, w, hw, hpw⟩
      obtain ⟨hw1, hw2⟩ : w.1 = rest ∧ q.2 ++ w.2 = caps := by
        constructor
        · exact congrArg Prod.fst hpw
        · exact congrArg Prod.snd hpw
      refine ⟨(q.1 ++ ext, q.2), iha cs q.1 q.2 ext (by exact hq), (rest ++ ext, w.2), ?_, ?_⟩
      · have := ihb q.1 w.1 w.2 ext (by exact hw)
        rwa [hw1] at this
      · simp [hw2]
  | alt a b iha ihb =>
      intro cs rest caps ext h
      simp only [Regex.mtch, List.mem_append] at h ⊢
      rcases h with h | h
      · exact Or.inl (iha cs rest caps ext h)
      · exact Or.inr (ihb cs rest caps ext h)
  | star a iha =>
      intro cs rest caps ext h
      rw [mtch_star_iff] at h ⊢
      exact iters_append_ext iha h ext
  | plus a iha =>
      intro cs rest caps ext h
      rw [mtch_plus_iff] at h ⊢
      rcases h with ⟨rest1, caps1, caps2, hq, hit, rfl⟩
      exact ⟨rest1 ++ ext, caps1, caps2, iha cs rest1 caps1 ext hq,
        iters_append_ext iha hit ext, rfl⟩
  | opt a iha =>
      intro cs rest caps ext h
      simp only [Regex.mtch, List.mem_append, List.mem_singleton, Prod.mk.injEq] at h ⊢
      rcases h with h | ⟨h1, h2⟩
      · exact Or.inl (iha cs rest caps ext h)
      · exact Or.inr ⟨by rw [h1], h2⟩
  | group name a iha =>
      intro cs rest caps ext h
      simp only [Regex.mtch, List.mem_map] at h ⊢
      rcases h with ⟨q, hq, hpq⟩
      have hq1 : q.1 = rest := congrArg Prod.fst hpq
      have hqlen : q.1.length ≤ cs.length :=
        (Regex.mtch_suffix a cs q hq).length_le
      refine ⟨(q.1 ++ ext, q.2), iha cs q.1 q.2 ext (by exact hq), ?_⟩
      have htake : (cs ++ ext).take ((cs ++ ext).length - (q.1 ++ ext).length) =
          cs.take (cs.length - q.1.length) := by
        have hlen : (cs ++ ext).length - (q.1 ++ ext).length = cs.length - q.1.length := by
          simp only [List.length_append]
          omega
        rw [hlen, List.take_append_eq_append_take,
          Nat.sub_eq_zero_of_le (Nat.sub_le _ _), List.take_zero, List.append_nil]
      have hq2 := congrArg Prod.snd hpq
      dsimp only at hq2 ⊢
      simp only [Prod.mk.injEq]
      refine ⟨by rw [hq1], ?_⟩
      rw [htake]
      exact hq2

theorem Regex.mtch_drop_ext :
    ∀ (r : Regex) (cs rest : List Char) (caps : Caps) (ext : List Char),
      (rest ++ ext, caps) ∈ r.mtch (cs ++ ext) → (rest, caps) ∈ r.mtch cs := by
  intro r
  induction r with
  | emp =>
      intro cs rest caps ext h
      simp only [Regex.mtch, List.mem_singleton, Prod.mk.injEq] at h ⊢
      exact ⟨List.append_cancel_right (h.1), h.2⟩
  | chr c =>
      intro cs rest caps ext h
      match cs with
      | [] =>
          exfalso
          match ext with
          | [] => simp [Regex.mtch] at h
          | e :: ext' =>
              simp only [List.nil_append, Regex.mtch] at h
              split at h
              · simp only [List.mem_singleton, Prod.mk.injEq] at h
                have := congrArg List.length h.1
                simp only [List.length_append, List.length_cons] at this
                omega
              · simp at h
      | c' :: cs' =>
          simp only [List.cons_append, Regex.mtch] at h ⊢
          split at h
          · simp only [List.mem_singleton, Prod.mk.injEq] at h
            obtain ⟨h1, h2⟩ := h
            have h1' : rest = cs' := List.append_cancel_right h1
            simp_all
          · simp at h
  | any =>
      intro cs rest caps ext h
      match cs with
      | [] =>
          exfalso
          match ext with
          | [] => simp [Regex.mtch] at h
          | e :: ext' =>
              simp only [List.nil_append, Regex.mtch] at h
              split at h
              · simp at h
              · simp only [List.mem_singleton, Prod.mk.injEq] at h
                have := congrArg List.length h.1
                simp only [List.length_append, List.length_cons] at this
                omega
      | c' :: cs' =>
          simp only [List.cons_append, Regex.mtch] at h ⊢
          split at h
          · simp at h
          · simp only [List.mem_singleton, Prod.mk.injEq] at h
            obtain ⟨h1, h2⟩ := h
            have h1' : rest = cs' := List.append_cancel_right h1
            simp_all
  | cls neg items =>
      intro cs rest caps ext h
      match cs with
      | [] =>
          exfalso
          match ext with
          | [] => simp [Regex.mtch] at h
          | e :: ext' =>
              simp only [List.nil_append, Regex.mtch] at h
              split at h
              · simp only [List.mem_singleton, Prod.mk.injEq] at h
                have := congrArg List.length h.1
                simp only [List.length_append, List.length_cons] at this
                omega
              · simp at h
      | c' :: cs' =>
          simp only [List.cons_append, Regex.mtch] at h ⊢
          split at h
          · simp only [List.mem_singleton, Prod.mk.injEq] at h
            obtain ⟨h1, h2⟩ := h
            have h1' : rest = cs' := List.append_cancel_right h1
            simp_all
          · simp at h
  | seq a b iha ihb =>
      intro cs rest caps ext h
      simp only [Regex.mtch, List.mem_flatMap, List.mem_map] at h ⊢
      rcases h with ⟨⟨q1, q2⟩, hq, ⟨w1, w2⟩, hw, hpw⟩
      simp only [Prod.mk.injEq] at hpw
      obtain ⟨hw1, hw2⟩ := hpw
      subst hw1
      have hqsuf : (rest ++ ext) <:+ q1 :=
        Regex.mtch_suffix b q1 (rest ++ ext, w2) hw
      have hext : ext <:+ q1 :=
        List.IsSuffix.trans (List.suffix_append rest ext) hqsuf
      obtain ⟨mid, hmid⟩ := hext
      subst hmid
      have hq' : (mid, q2) ∈ a.mtch cs := iha cs mid q2 ext hq
      have hw' : (rest, w2) ∈ b.mtch mid := ihb mid rest w2 ext hw
      exact ⟨(mid, q2), hq', (rest, w2), hw', by simp [hw2]⟩
  | alt a b iha ihb =>
      intro cs rest caps ext h
      simp only [Regex.mtch, List.mem_append] at h ⊢
      rcases h with h | h
      · exact Or.inl (iha cs rest caps ext h)
      · exact Or.inr (ihb cs rest caps ext h)
  | star a iha =>
      intro cs rest caps ext h
      rw [mtch_star_iff] at h ⊢
      exact iters_drop_ext iha (Regex.mtch_suffix a) h cs rest ext rfl rfl
  | plus a iha =>
      intro cs rest caps ext h
      rw [mtch_plus_iff] at h ⊢
      rcases h with ⟨rest1, caps1, caps2, hq, hit, rfl⟩
      have hrsuf : (rest ++ ext) <:+ rest1 := iters_suffix (Regex.mtch_suffix a) hit
      have hext : ext <:+ rest1 :=
        List.IsSuffix.trans (List.suffix_append rest ext) hrsuf
      obtain ⟨mid1, hmid⟩ := hext
      subst hmid
      exact ⟨mid1, caps1, caps2, iha cs mid1 caps1 ext hq,
        iters_drop_ext iha (Regex.mtch_suffix a) hit mid1 rest ext rfl rfl, rfl⟩
  | opt a iha =>
      intro cs rest caps ext h
      simp only [Regex.mtch, List.mem_append, List.mem_singleton, Prod.mk.injEq] at h ⊢
      rcases h with h | ⟨h1, h2⟩
      · exact Or.inl (iha cs rest caps ext h)
      · exact Or.inr ⟨List.append_cancel_right h1, h2⟩
  | group name a iha =>
      intro cs rest caps ext h
      simp only [Regex.mtch, List.mem_map] at h ⊢
      rcases h with ⟨⟨q1, q2⟩, hq, hpq⟩
      dsimp only at hpq
      have hq1 : q1 = rest ++ ext := congrArg Prod.fst hpq
      have hq2 := congrArg Prod.snd hpq
      dsimp only at hq2
      subst hq1
      have hq' : (rest, q2) ∈ a.mtch cs := iha cs rest q2 ext hq
      have hrlen : rest.length ≤ cs.length :=
        (Regex.mtch_suffix a cs (rest, q2) hq').length_le
      have htake : (cs ++ ext).take ((cs ++ ext).length - (rest ++ ext).length) =
          cs.take (cs.length - rest.length) := by
        have hlen : (cs ++ ext).length - (rest ++ ext).length = cs.length - rest.length := by
          simp only [List.length_append]
          omega
        rw [hlen, List.take_append_eq_append_take,
          Nat.sub_eq_zero_of_le (Nat.sub_le _ _), List.take_zero, List.append_nil]
      refine ⟨(rest, q2), hq', ?_⟩
      dsimp only
      simp only [Prod.mk.injEq, true_and]
      rw [htake] at hq2
      exact hq2

theorem starIter_caps_nil (f : List Char → List (List Char × Caps))
    (hf : ∀ cs p, p ∈ f cs → p.2 = []) :
    ∀ n cs p, p ∈ starIter f n cs → p.2 = [] := by
  intro n
  induction n with
  | zero =>
      intro cs p hp
      simp only [starIter, List.mem_singleton] at hp
      subst hp; rfl
  | succ n ih =>
      intro cs p hp
      simp only [starIter, List.mem_append, List.mem_flatMap, List.mem_map,
        List.mem_filter, List.mem_singleton] at hp
      rcases hp with ⟨q, ⟨hq, _⟩, w, hw, hpw⟩ | hp
      · subst hpw
        simp [hf cs q hq, ih q.1 w hw]
      · subst hp; rfl

theorem Regex.noGroups_caps :
    ∀ (r : Regex), r.noGroups = true → ∀ cs p, p ∈ r.mtch cs → p.2 = [] := by
  intro r
  induction r with
  | emp =>
      intro _ cs p hp
      simp only [Regex.mtch, List.mem_singleton] at hp
      subst hp; rfl
  | chr c =>
      intro _ cs p hp
      match cs with
      | [] => simp [Regex.mtch] at hp
      | c' :: rest =>
          simp only [Regex.mtch] at hp
          split at hp
          · simp only [List.mem_singleton] at hp; subst hp; rfl
          · simp at hp
  | any =>
      intro _ cs p hp
      match cs with
      | [] => simp [Regex.mtch] at hp
      | c' :: rest =>
          simp only [Regex.mtch] at hp
          split at hp
          · simp at hp
          · simp only [List.mem_singleton] at hp; subst hp; rfl
  | cls neg items =>
      intro _ cs p hp
      match cs with
      | [] => simp [Regex.mtch] at hp
      | c' :: rest =>
          simp only [Regex.mtch] at hp
          split at hp
          · simp only [List.mem_singleton] at hp; subst hp; rfl
          · simp at hp
  | seq a b iha ihb =>
      intro hng cs p hp
      simp only [Regex.noGroups, Bool.and_eq_true] at hng
      simp only [Regex.mtch, List.mem_flatMap, List.mem_map] at hp
      rcases hp with ⟨q, hq, w, hw, hpw⟩
      subst hpw
      simp [iha hng.1 cs q hq, ihb hng.2 q.1 w hw]
  | alt a b iha ihb =>
      intro hng cs p hp
      simp only [Regex.noGroups, Bool.and_eq_true] at hng
      simp only [Regex.mtch, List.mem_append] at hp
      rcases hp with hp | hp
      · exact iha hng.1 cs p hp
      · exact ihb hng.2 cs p hp
  | star a iha =>
      intro hng cs p hp
      exact starIter_caps_nil a.mtch (iha hng) cs.length cs p hp
  | plus a iha =>
      intro hng cs p hp
      simp only [Regex.mtch, List.mem_flatMap, List.mem_map] at hp
      rcases hp with ⟨q, hq, w, hw, hpw⟩
      subst hpw
      simp [iha hng cs q hq, starIter_caps_nil a.mtch (iha hng) q.1.length q.1 w hw]
  | opt a iha =>
      intro hng cs p hp
      simp only [Regex.mtch, List.mem_append, List.mem_singleton] at hp
      rcases hp with hp | hp
      · exact iha hng cs p hp
      · subst hp; rfl
  | group name a iha =>
      intro hng cs p hp
      simp [Regex.noGroups] at hng

theorem wcls_clsMatches (c : Char) :
    clsMatches false [CItem.word, CItem.chr '-'] c = wordHyphen c := by
  simp [clsMatches, citemMatches, wordHyphen]

theorem wcls_iters_chunks {cs rest : List Char} {caps : Caps}
    (h : Iters (Regex.cls false [CItem.word, CItem.chr '-']).mtch cs rest caps) :
    ∃ chunk, cs = chunk ++ rest ∧ (∀ c ∈ chunk, wordHyphen c = true) ∧ caps = [] := by
  induction h with
  | nil cs => exact ⟨[], rfl, by simp, rfl⟩
  | cons hq hlt hrest ih =>
      rename_i cs' rest1 rest' caps1 caps2
      obtain ⟨chunk', hchunk, hword, hcaps⟩ := ih
      match cs' with
      | [] => simp [Regex.mtch] at hq
      | c :: tail =>
          simp only [Regex.mtch] at hq
          split at hq
          · rename_i hcls
            simp only [List.mem_singleton, Prod.mk.injEq] at hq
            obtain ⟨h1, h2⟩ := hq
            refine ⟨c :: chunk', ?_, ?_, ?_⟩
            · rw [← h1, hchunk, List.cons_append]
            · intro x hx
              rcases List.mem_cons.mp hx with hx | hx
              · subst hx
                rw [← wcls_clsMatches]; exact hcls
              · exact hword x hx
            · simp [h2, hcaps]
          · simp at hq

theorem wcls_plus_chunks {cs rest : List Char} {caps : Caps}
    (h : (rest, caps) ∈ (Regex.plus (Regex.cls false [CItem.word, CItem.chr '-'])).mtch cs) :
    ∃ chunk, cs = chunk ++ rest ∧ chunk ≠ [] ∧
      (∀ c ∈ chunk, wordHyphen c = true) ∧ caps = [] := by
  rw [mtch_plus_iff] at h
  rcases h with ⟨rest1, caps1, caps2, hq, hit, rfl⟩
  obtain ⟨chunk', hchunk, hword, hcaps2⟩ := wcls_iters_chunks hit
  match cs with
  | [] => simp [Regex.mtch] at hq
  | c :: tail =>
      simp only [Regex.mtch] at hq
      split at hq
      · rename_i hcls
        simp only [List.mem_singleton, Prod.mk.injEq] at hq
        obtain ⟨h1, h2⟩ := hq
        refine ⟨c :: chunk', ?_, by simp, ?_, ?_⟩
        · rw [← h1, hchunk, List.cons_append]
        · intro x hx
          rcases List.mem_cons.mp hx with hx | hx
          · subst hx
            rw [← wcls_clsMatches]; exact hcls
          · exact hword x hx
        · simp [h2, hcaps2]
      · simp at hq

theorem wcls_chunk_iters {chunk : List Char}
    (hw : ∀ c ∈ chunk, wordHyphen c = true) :
    Iters (Regex.cls false [CItem.word, CItem.chr '-']).mtch chunk [] [] := by
  induction chunk with
  | nil => exact Iters.nil []
  | cons c chunk' ih =>
      have hstep : (chunk', ([] : Caps)) ∈
          (Regex.cls false [CItem.word, CItem.chr '-']).mtch (c :: chunk') := by
        simp only [Regex.mtch]
        rw [wcls_clsMatches c, hw c (List.mem_cons_self c chunk')]
        simp
      have : Iters (Regex.cls false [CItem.word, CItem.chr '-']).mtch chunk' [] [] :=
        ih (fun x hx => hw x (List.mem_cons_of_mem c hx))
      exact Iters.cons hstep (by simp) this

theorem wcls_plus_accepts {chunk : List Char} (hne : chunk ≠ [])
    (hw : ∀ c ∈ chunk, wordHyphen c = true) :
    (([] : List Char), ([] : Caps)) ∈
      (Regex.plus (Regex.cls false [CItem.word, CItem.chr '-'])).mtch chunk := by
  match chunk, hne with
  | c :: chunk', _ =>
      rw [mtch_plus_iff]
      refine ⟨chunk', [], [], ?_, ?_, rfl⟩
      · simp only [Regex.mtch]
        rw [wcls_clsMatches c, hw c (List.mem_cons_self c chunk')]
        simp
      · exact wcls_chunk_iters (fun x hx => hw x (List.mem_cons_of_mem c hx))

theorem mtch_seqList_cons (r : Regex) (rs : List Regex) (cs : List Char) :
    (Regex.seqList (r :: rs)).mtch cs = (Regex.seq r (Regex.seqList rs)).mtch cs := by
  match rs with
  | _ :: _ => rfl
  | [] =>
      show r.mtch cs = (Regex.seq r Regex.emp).mtch cs
      simp only [Regex.mtch]
      have : ∀ (l : List (List Char × Caps)),
          (l.flatMap (fun p => [(p.1, p.2 ++ ([] : Caps))])) = l := by
        intro l
        induction l with
        | nil => rfl
        | cons x xs ih => simp [List.flatMap_cons, ih]
      exact (this (r.mtch cs)).symm

theorem toks_mtch_sound :
    ∀ (toks : List Tok), (∀ t ∈ toks, tokWF t = true) →
      ∀ (cs rest : List Char) (caps : Caps),
        (rest, caps) ∈ (toksRegex toks).mtch cs →
        ∃ pre, cs = pre ++ rest ∧ SplitMatch toks pre caps := by
  intro toks
  induction toks with
  | nil =>
      intro _ cs rest caps h
      simp only [toksRegex, List.map_nil, Regex.seqList, Regex.mtch,
        List.mem_singleton, Prod.mk.injEq] at h
      obtain ⟨h1, h2⟩ := h
      subst h1; subst h2
      exact ⟨[], rfl, SplitMatch.nil⟩
  | cons t ts ih =>
      intro hwf cs rest caps h
      have hwft : tokWF t = true := hwf t (List.mem_cons_self t ts)
      have hwfts : ∀ t' ∈ ts, tokWF t' = true :=
        fun t' ht' => hwf t' (List.mem_cons_of_mem t ht')
      rw [show toksRegex (t :: ts) = Regex.seqList (tokRegex t :: ts.map tokRegex) from rfl,
        mtch_seqList_cons] at h
      simp only [Regex.mtch, List.mem_flatMap, List.mem_map] at h
      rcases h with ⟨⟨q1, q2⟩, hq, ⟨w1, w2⟩, hw, hpw⟩
      simp only [Prod.mk.injEq] at hpw
      obtain ⟨hw1, hw2⟩ := hpw
      rw [hw1] at hw
      obtain ⟨pre2, hq1eq, hsm⟩ := ih hwfts q1 rest w2 hw
      rw [hq1eq] at hq
      match t with
      | .lit c =>
          simp only [tokRegex] at hq
          match cs with
          | [] => simp [Regex.mtch] at hq
          | c' :: cs' =>
              simp only [Regex.mtch] at hq
              split at hq
              · rename_i hc
                simp only [List.mem_singleton, Prod.mk.injEq] at hq
                obtain ⟨h1, h2⟩ := hq
                subst hc
                refine ⟨c' :: pre2, by rw [← h1, List.cons_append], ?_⟩
                rw [← hw2, h2]
                simp only [List.nil_append]
                exact SplitMatch.lit hsm
              · simp at hq
      | .var n =>
          simp only [tokRegex, Regex.mtch, List.mem_map] at hq
          rcases hq with ⟨⟨i1, i2⟩, hi, hmk⟩
          dsimp only at hmk
          simp only [Prod.mk.injEq] at hmk
          obtain ⟨hi1, hi2⟩ := hmk
          rw [hi1] at hi
          obtain ⟨chunk, hcs, hne, hword, hic⟩ := wcls_plus_chunks hi
          have hcap : List.take (cs.length - i1.length) cs = chunk := by
            rw [hcs, hi1]
            have : (chunk ++ (pre2 ++ rest)).length - (pre2 ++ rest).length =
                chunk.length := by
              simp only [List.length_append]; omega
            rw [this, List.take_left]
          rw [hic, hcap] at hi2
          refine ⟨chunk ++ pre2, by rw [hcs, List.append_assoc], ?_⟩
          rw [← hw2, ← hi2]
          exact SplitMatch.var hne hword hsm
      | .varRe n r =>
          have hng : r.noGroups = true := by
            simp only [tokWF, Bool.and_eq_true] at hwft
            exact hwft.2
          simp only [tokRegex, Regex.mtch, List.mem_map] at hq
          rcases hq with ⟨⟨i1, i2⟩, hi, hmk⟩
          dsimp only at hmk
          simp only [Prod.mk.injEq] at hmk
          obtain ⟨hi1, hi2⟩ := hmk
          rw [hi1] at hi
          have hsuf : (pre2 ++ rest) <:+ cs :=
            Regex.mtch_suffix r cs (pre2 ++ rest, i2) hi
          obtain ⟨chunk, hcs⟩ := hsuf
          have hi' : (([] : List Char), i2) ∈ r.mtch chunk := by
            apply Regex.mtch_drop_ext r chunk [] i2 (pre2 ++ rest)
            rw [List.nil_append, hcs]
            exact hi
          have hic : i2 = [] :=
            Regex.noGroups_caps r hng chunk ([], i2) hi'
          have hcap : List.take (cs.length - i1.length) cs = chunk := by
            rw [← hcs, hi1]
            have : (chunk ++ (pre2 ++ rest)).length - (pre2 ++ rest).length =
                chunk.length := by
              simp only [List.length_append]; omega
            rw [this, List.take_left]
          rw [hic, hcap] at hi2
          refine ⟨chunk ++ pre2, by rw [← hcs, List.append_assoc], ?_⟩
          rw [← hw2, ← hi2]
          refine SplitMatch.varRe ⟨i2, ?_⟩ hsm
          rw [hic]
          rw [hic] at hi'
          exact hi'

theorem mtch_seq_mem {a b : Regex} {cs rest : List Char} {caps : Caps} :
    (rest, caps) ∈ (Regex.seq a b).mtch cs ↔
      ∃ mid capsa capsb, (mid, capsa) ∈ a.mtch cs ∧ (rest, capsb) ∈ b.mtch mid ∧
        caps = capsa ++ capsb := by
  constructor
  · intro h
    simp only [Regex.mtch, List.mem_flatMap, List.mem_map] at h
    rcases h with ⟨⟨q1, q2⟩, hq, ⟨w1, w2⟩, hw, hpw⟩
    simp only [Prod.mk.injEq] at hpw
    obtain ⟨h1, h2⟩ := hpw
    subst h1
    exact ⟨q1, q2, w2, hq, hw, h2.symm⟩
  · rintro ⟨mid, capsa, capsb, hq, hw, rfl⟩
    simp only [Regex.mtch, List.mem_flatMap, List.mem_map]
    exact ⟨(mid, capsa), hq, (rest, capsb), hw, rfl⟩

theorem mtch_group_named_mem {n : String} {a : Regex} {cs rest : List Char} {caps : Caps} :
    (rest, caps) ∈ (Regex.group (some n) a).mtch cs ↔
      ∃ icaps, (rest, icaps) ∈ a.mtch cs ∧
        caps = icaps ++ [(n, (cs.take (cs.length - rest.length)).asString)] := by
  constructor
  · intro h
    simp only [Regex.mtch, List.mem_map] at h
    rcases h with ⟨⟨q1, q2⟩, hq, hpw⟩
    dsimp only at hpw
    simp only [Prod.mk.injEq] at hpw
    obtain ⟨h1, h2⟩ := hpw
    subst h1
    exact ⟨q2, hq, h2.symm⟩
  · rintro ⟨icaps, hq, rfl⟩
    simp only [Regex.mtch, List.mem_map]
    exact ⟨(rest, icaps), hq, rfl⟩

theorem toks_mtch_complete :
    ∀ {toks : List Tok} {pre : List Char} {caps : Caps},
      (∀ t ∈ toks, tokWF t = true) → SplitMatch toks pre caps →
      (([] : List Char), caps) ∈ (toksRegex toks).mtch pre := by
  intro toks pre caps hwf h
  induction h with
  | nil => simp [toksRegex, Regex.seqList, Regex.mtch]
  | lit hsm ih =>
      rename_i c ts cs0 caps0
      have hwfts : ∀ t' ∈ ts, tokWF t' = true :=
        fun t' ht' => hwf t' (List.mem_cons_of_mem _ ht')
      rw [show toksRegex (.lit c :: ts) = Regex.seqList (tokRegex (.lit c) :: ts.map tokRegex)
          from rfl, mtch_seqList_cons]
      simp only [Regex.mtch, List.mem_flatMap, List.mem_map]
      refine ⟨(cs0, []), ?_, ([], caps0), ih hwfts, rfl⟩
      simp [tokRegex, Regex.mtch]
  | var hne hword hsm ih =>
      rename_i n ts chunk cs0 caps0
      have hwfts : ∀ t' ∈ ts, tokWF t' = true :=
        fun t' ht' => hwf t' (List.mem_cons_of_mem _ ht')
      rw [show toksRegex (.var n :: ts) = Regex.seqList (tokRegex (.var n) :: ts.map tokRegex)
          from rfl, mtch_seqList_cons]
      apply mtch_seq_mem.mpr
      refine ⟨cs0, [(n, chunk.asString)], caps0, ?_, ih hwfts, rfl⟩
      show (cs0, [(n, chunk.asString)]) ∈
        (Regex.group (some n)
          (Regex.plus (Regex.cls false [CItem.word, CItem.chr '-']))).mtch (chunk ++ cs0)
      apply mtch_group_named_mem.mpr
      have hplus : (cs0, ([] : Caps)) ∈
          (Regex.plus (Regex.cls false [CItem.word, CItem.chr '-'])).mtch (chunk ++ cs0) := by
        have := Regex.mtch_append_ext
          (Regex.plus (Regex.cls false [CItem.word, CItem.chr '-'])) chunk [] [] cs0
          (wcls_plus_accepts hne hword)
        simpa using this
      refine ⟨[], hplus, ?_⟩
      have hcap : (chunk ++ cs0).take ((chunk ++ cs0).length - cs0.length) = chunk := by
        have : (chunk ++ cs0).length - cs0.length = chunk.length := by
          simp only [List.length_append]; omega
        rw [this, List.take_left]
      rw [hcap]
      rfl
  | varRe hacc hsm ih =>
      rename_i n r ts chunk cs0 caps0
      have hng : r.noGroups = true := by
        have := hwf (.varRe n r) (List.mem_cons_self _ _)
        simp only [tokWF, Bool.and_eq_true] at this
        exact this.2
      have hwfts : ∀ t' ∈ ts, tokWF t' = true :=
        fun t' ht' => hwf t' (List.mem_cons_of_mem _ ht')
      rw [show toksRegex (.varRe n r :: ts) =
          Regex.seqList (tokRegex (.varRe n r) :: ts.map tokRegex) from rfl,
        mtch_seqList_cons]
      apply mtch_seq_mem.mpr
      refine ⟨cs0, [(n, chunk.asString)], caps0, ?_, ih hwfts, rfl⟩
      show (cs0, [(n, chunk.asString)]) ∈ (Regex.group (some n) r).mtch (chunk ++ cs0)
      apply mtch_group_named_mem.mpr
      obtain ⟨ic, hic⟩ := hacc
      have hic0 : ic = [] := Regex.noGroups_caps r hng chunk ([], ic) hic
      subst hic0
      have hr : (cs0, ([] : Caps)) ∈ r.mtch (chunk ++ cs0) := by
        have := Regex.mtch_append_ext r chunk [] [] cs0 hic
        simpa using this
      refine ⟨[], hr, ?_⟩
      have hcap : (chunk ++ cs0).take ((chunk ++ cs0).length - cs0.length) = chunk := by
        have : (chunk ++ cs0).length - cs0.length = chunk.length := by
          simp only [List.length_append]; omega
        rw [this, List.take_left]
      rw [hcap]
      rfl

theorem regexFullMatch_eq_some {r : Regex} {path : String} {caps : Caps}
    (h : regexFullMatch r path = some caps) : ([], caps) ∈ r.mtch path.toList := by
  simp only [regexFullMatch, Option.map_eq_some'] at h
  rcases h with ⟨p, hp, hcaps⟩
  have hmem := List.mem_of_find?_eq_some hp
  have hpred := List.find?_some hp
  simp only [List.isEmpty_iff] at hpred
  have : p = ([], caps) := by
    obtain ⟨p1, p2⟩ := p
    simp only at hpred hcaps
    rw [hpred, hcaps]
  rwa [this] at hmem

theorem regexFullMatch_isSome_iff {r : Regex} {path : String} :
    (regexFullMatch r path).isSome ↔ ∃ caps, ([], caps) ∈ r.mtch path.toList := by
  constructor
  · intro h
    rw [Option.isSome_iff_exists] at h
    obtain ⟨caps, hcaps⟩ := h
    exact ⟨caps, regexFullMatch_eq_some hcaps⟩
  · rintro ⟨caps, hmem⟩
    simp only [regexFullMatch, Option.isSome_map']
    rw [List.find?_isSome]
    exact ⟨([], caps), hmem, by simp⟩

theorem splitmatch_caps_keys {toks : List Tok} {pre : List Char} {caps : Caps}
    (h : SplitMatch toks pre caps) : caps.map Prod.fst = toksVarNames toks := by
  induction h with
  | nil => rfl
  | lit _ ih => simpa [toksVarNames] using ih
  | var _ _ _ ih => simpa [toksVarNames] using ih
  | varRe _ _ ih => simpa [toksVarNames] using ih

theorem capsLookup_of_nodup {caps : Caps} (hnd : (caps.map Prod.fst).Nodup) :
    ∀ q ∈ caps, capsLookup caps q.1 = some q.2 := by
  induction caps with
  | nil => intro q hq; simp at hq
  | cons c rest ih =>
      intro q hq
      simp only [List.map_cons, List.nodup_cons] at hnd
      rcases List.mem_cons.mp hq with hq | hq
      · subst hq
        simp [capsLookup, List.find?_cons]
      · have hne : c.1 ≠ q.1 := by
          intro heq
          exact hnd.1 (heq ▸ List.mem_map_of_mem Prod.fst hq)
        simp only [capsLookup] at ih ⊢
        rw [List.find?_cons_of_neg]
        · exact ih hnd.2 q hq
        · simp [hne]

theorem pyFormatAux_out_cons (env : Caps) (c : Char) (cs : List Char)
    (hc1 : c ≠ '{') (hc2 : c ≠ '}') :
    pyFormatAux env .out (c :: cs) = (pyFormatAux env .out cs).map (fun r => c :: r) := by
  simp [pyFormatAux, hc1, hc2]

theorem pyFormatAux_inField_cons (env : Caps) (acc : List Char) (c : Char) (cs : List Char)
    (hc1 : c ≠ '}') (hc2 : c ≠ '{') (hc3 : c ≠ ':') (hc4 : c ≠ '!') :
    pyFormatAux env (.inField acc) (c :: cs) = pyFormatAux env (.inField (c :: acc)) cs := by
  simp [pyFormatAux, hc1, hc2, hc3, hc4]

theorem wordChar_ne_special {c : Char} (hc : isWordCharB c = true) :
    c ≠ '{' ∧ c ≠ '}' ∧ c ≠ ':' ∧ c ≠ '!' := by
  refine ⟨?_, ?_, ?_, ?_⟩ <;> (intro h; subst h; simp [isWordCharB] at hc)

theorem pyFormatAux_inField_scan (env : Caps) :
    ∀ (name : List Char) (acc : List Char) (cs : List Char),
      (∀ c ∈ name, isWordCharB c = true) →
      pyFormatAux env (.inField acc) (name ++ '}' :: cs) =
        match capsLookup env (acc.reverse ++ name).asString with
        | some v => (pyFormatAux env .out cs).map (fun r => v.toList ++ r)
        | none => none := by
  intro name
  induction name with
  | nil =>
      intro acc cs _
      simp [pyFormatAux]
  | cons c name' ih =>
      intro acc cs hw
      have hc := wordChar_ne_special (hw c (List.mem_cons_self c name'))
      rw [List.cons_append,
        pyFormatAux_inField_cons env acc c _ hc.2.1 hc.1 hc.2.2.1 hc.2.2.2,
        ih (c :: acc) cs (fun x hx => hw x (List.mem_cons_of_mem c hx))]
      have : (c :: acc).reverse ++ name' = acc.reverse ++ c :: name' := by
        simp
      rw [this]

theorem pyFormatAux_field (env : Caps) (name : List Char) (v : String) (cs : List Char)
    (hne : name ≠ []) (hw : ∀ c ∈ name, isWordCharB c = true)
    (hv : capsLookup env name.asString = some v) :
    pyFormatAux env .out ('{' :: (name ++ '}' :: cs)) =
      (pyFormatAux env .out cs).map (fun r => v.toList ++ r) := by
  match name, hne with
  | n1 :: name', _ =>
      have hn1 := wordChar_ne_special (hw n1 (List.mem_cons_self n1 name'))
      have hstep : pyFormatAux env .out ('{' :: ((n1 :: name') ++ '}' :: cs)) =
          pyFormatAux env (.inField []) ((n1 :: name') ++ '}' :: cs) := by
        simp [pyFormatAux, hn1.1]
      rw [hstep, pyFormatAux_inField_scan env _ [] cs hw]
      simp only [List.reverse_nil, List.nil_append]
      rw [hv]

theorem splitmatch_pyformat {toks : List Tok} {pre : List Char} {caps : Caps} (env : Caps)
    (hwf : ∀ t ∈ toks, tokWF t = true)
    (h : SplitMatch toks pre caps)
    (henv : ∀ q ∈ caps, capsLookup env q.1 = some q.2) :
    pyFormatAux env .out (toksFmtChars toks) = some pre := by
  induction h with
  | nil => rfl
  | lit hsm ih =>
      rename_i c ts cs0 caps0
      have hwft := hwf (.lit c) (List.mem_cons_self _ _)
      simp only [tokWF, Bool.not_eq_true', Bool.or_eq_false_iff, decide_eq_false_iff_not]
        at hwft
      have hfmt : toksFmtChars (.lit c :: ts) = c :: toksFmtChars ts := by
        simp [toksFmtChars, tokFmtChars]
      rw [hfmt, pyFormatAux_out_cons env c _ hwft.1 hwft.2,
        ih (fun t ht => hwf t (List.mem_cons_of_mem _ ht)) henv]
      rfl
  | var hne hword hsm ih =>
      rename_i n ts chunk cs0 caps0
      have hwft := hwf (.var n) (List.mem_cons_self _ _)
      simp only [tokWF, Bool.and_eq_true, Bool.not_eq_true',
        List.all_eq_true, decide_eq_true_eq] at hwft
      have hne' : n.toList ≠ [] := by
        intro hh
        rw [hh] at hwft
        simp at hwft
      have hfmt : toksFmtChars (.var n :: ts) =
          '{' :: (n.toList ++ '}' :: toksFmtChars ts) := by
        simp [toksFmtChars, tokFmtChars]
      have hv : capsLookup env n.toList.asString = some chunk.asString := by
        rw [String.asString_toList]
        exact henv (n, chunk.asString) (List.mem_cons_self _ _)
      rw [hfmt, pyFormatAux_field env n.toList chunk.asString (toksFmtChars ts)
          hne' hwft.2 hv,
        ih (fun t ht => hwf t (List.mem_cons_of_mem _ ht))
          (fun q hq => henv q (List.mem_cons_of_mem _ hq))]
      rfl
  | varRe hacc hsm ih =>
      rename_i n r ts chunk cs0 caps0
      have hwft := hwf (.varRe n r) (List.mem_cons_self _ _)
      simp only [tokWF, Bool.and_eq_true, Bool.not_eq_true',
        List.all_eq_true, decide_eq_true_eq] at hwft
      have hne' : n.toList ≠ [] := by
        intro hh
        rw [hh] at hwft
        simp at hwft
      have hfmt : toksFmtChars (.varRe n r :: ts) =
          '{' :: (n.toList ++ '}' :: toksFmtChars ts) := by
        simp [toksFmtChars, tokFmtChars]
      have hv : capsLookup env n.toList.asString = some chunk.asString := by
        rw [String.asString_toList]
        exact henv (n, chunk.asString) (List.mem_cons_self _ _)
      rw [hfmt, pyFormatAux_field env n.toList chunk.asString (toksFmtChars ts)
          hne' hwft.1.2 hv,
        ih (fun t ht => hwf t (List.mem_cons_of_mem _ ht))
          (fun q hq => henv q (List.mem_cons_of_mem _ hq))]
      rfl

theorem find_mounted_resource_none_iff (rs : List MountedResourceRec)
    (method path : String) (im : Bool) :
    find_mounted_resource rs method path im = none ↔
      ∀ mr ∈ rs,
        (if im then regexFullMatch mr.regex path else mr.match' method path) = none := by
  induction rs with
  | nil => simp [find_mounted_resource]
  | cons mr0 rest ih =>
      constructor
      · intro h mr' hmr'
        simp only [find_mounted_resource] at h
        rcases List.mem_cons.mp hmr' with hmr' | hmr'
        · subst hmr'
          split at h
          · exact absurd h (by simp)
          · assumption
        · split at h
          · exact absurd h (by simp)
          · exact ih.mp h mr' hmr'
      · intro h
        have hhead := h mr0 (List.mem_cons_self _ _)
        simp only [find_mounted_resource]
        rw [hhead]
        exact ih.mpr (fun mr' hmr' => h mr' (List.mem_cons_of_mem _ hmr'))

theorem find_mounted_resource_some (rs : List MountedResourceRec)
    (method path : String) (im : Bool) (mr : MountedResourceRec) (urlvars : Caps) :
    find_mounted_resource rs method path im = some (mr, urlvars) →
      mr ∈ rs ∧
        (if im then regexFullMatch mr.regex path else mr.match' method path) =
          some urlvars := by
  induction rs with
  | nil => simp [find_mounted_resource]
  | cons mr0 rest ih =>
      intro h
      simp only [find_mounted_resource] at h
      split at h
      · rename_i v hv
        rw [Option.some_inj] at h
        have h1 : mr0 = mr := congrArg Prod.fst h
        have h2 : v = urlvars := congrArg Prod.snd h
        subst h1; subst h2
        exact ⟨List.mem_cons_self _ _, hv⟩
      · have := ih h
        exact ⟨List.mem_cons_of_mem _ this.1, this.2⟩

theorem match_none_of_regex_none {mr : MountedResourceRec} {method path : String}
    (h : regexFullMatch mr.regex path = none) : mr.match' method path = none := by
  simp only [MountedResourceRec.match']
  split
  · rfl
  · exact h

/-! # Claim theorems -/

/-- C1: resolution distinguishes three outcomes.  If some mounted resource
matches both path and method, resolution succeeds with a match; if every
per-resource match fails but some mounted resource matches the path alone,
the request is aborted with 405 (not 404); if no pattern matches the path,
the request is aborted with 404. -/
theorem C1_resource_finder_trichotomy (rs : List MountedResourceRec) (method path : String) :
    ((∃ mr ∈ rs, (mr.match' method path).isSome) →
      ∃ mr urlvars, resource_finder_resolve rs method path = .found mr urlvars ∧
        mr ∈ rs ∧ mr.match' method path = some urlvars) ∧
    (((∀ mr ∈ rs, mr.match' method path = none) ∧
        ∃ mr ∈ rs, (regexFullMatch mr.regex path).isSome) →
      resource_finder_resolve rs method path = .abort 405) ∧
    ((∀ mr ∈ rs, regexFullMatch mr.regex path = none) →
      resource_finder_resolve rs method path = .abort 404) := by
  refine ⟨?_, ?_, ?_⟩
  · rintro ⟨mr0, hmr0, hsome⟩
    have hne : find_mounted_resource rs method path false ≠ none := by
      intro habs
      have hall := (find_mounted_resource_none_iff rs method path false).mp habs
      have := hall mr0 hmr0
      simp only [Bool.false_eq_true, if_false] at this
      rw [this] at hsome
      simp at hsome
    obtain ⟨⟨mr, urlvars⟩, hfind⟩ := Option.ne_none_iff_exists'.mp hne
    have hp := find_mounted_resource_some rs method path false mr urlvars hfind
    have hp2 : mr.match' method path = some urlvars := by
      have := hp.2
      simpa using this
    refine ⟨mr, urlvars, ?_, hp.1, hp2⟩
    simp only [resource_finder_resolve, hfind]
  · rintro ⟨hall, mr0, hmr0, hsome⟩
    have hnone : find_mounted_resource rs method path false = none := by
      rw [find_mounted_resource_none_iff]
      intro mr' hmr'
      simpa using hall mr' hmr'
    have hne : find_mounted_resource rs method path true ≠ none := by
      intro habs
      have hall2 := (find_mounted_resource_none_iff rs method path true).mp habs
      have := hall2 mr0 hmr0
      simp only [if_true] at this
      rw [this] at hsome
      simp at hsome
    obtain ⟨p0, hfind⟩ := Option.ne_none_iff_exists'.mp hne
    simp only [resource_finder_resolve, hnone, hfind]
  · intro hall
    have h1 : find_mounted_resource rs method path false = none := by
      rw [find_mounted_resource_none_iff]
      intro mr' hmr'
      simpa using match_none_of_regex_none (hall mr' hmr')
    have h2 : find_mounted_resource rs method path true = none := by
      rw [find_mounted_resource_none_iff]
      intro mr' hmr'
      simpa using hall mr' hmr'
    simp only [resource_finder_resolve, h1, h2]

/-- C1 witness: concrete resources exercising all three outcomes. -/
theorem C1_resource_finder_trichotomy_witness :
    (∃ mr urlvars,
      resource_finder_resolve [⟨"r", [], toksRegex [.lit '/', .lit 'a']⟩] "GET" "/a" =
        .found mr urlvars) ∧
    resource_finder_resolve [⟨"r", ["POST"], toksRegex [.lit '/', .lit 'a']⟩] "GET" "/a" =
      .abort 405 ∧
    resource_finder_resolve [⟨"r", [], toksRegex [.lit '/', .lit 'a']⟩] "GET" "/b" =
      .abort 404 := by
  refine ⟨?_, ?_, ?_⟩
  · obtain ⟨mr, urlvars, hres, -, -⟩ :=
      (C1_resource_finder_trichotomy [⟨"r", [], toksRegex [.lit '/', .lit 'a']⟩]
        "GET" "/a").1
        ⟨⟨"r", [], toksRegex [.lit '/', .lit 'a']⟩, by simp, by decide⟩
    exact ⟨mr, urlvars, hres⟩
  · exact (C1_resource_finder_trichotomy [⟨"r", ["POST"], toksRegex [.lit '/', .lit 'a']⟩]
      "GET" "/a").2.1 (by decide)
  · exact (C1_resource_finder_trichotomy [⟨"r", [], toksRegex [.lit '/', .lit 'a']⟩]
      "GET" "/b").2.2 (by decide)

/-- C4 counterexample: in the pattern `/pages/\x7bname\x7d/2` a digit occurs
after the placeholder, so the negative lookahead of the placeholder rewrites
leaves `\x7bname\x7d` as literal text.  The compiled matcher rejects
`/pages/abc/2`, although the claim says the placeholder matches one or more
word/hyphen characters (witnessed by the `SplitMatch` decomposition), and it
instead matches the path containing a literal `\x7bname\x7d`. -/
theorem C4_counterexample :
    (MountedResource.path_regex "/pages/\x7bname\x7d/2").map
        (fun r => regexFullMatch r "/pages/abc/2") = some none ∧
    SplitMatch
      [.lit '/', .lit 'p', .lit 'a', .lit 'g', .lit 'e', .lit 's', .lit '/',
        .var "name", .lit '/', .lit '2']
      "/pages/abc/2".toList [("name", "abc")] ∧
    (MountedResource.path_regex "/pages/\x7bname\x7d/2").map
        (fun r => regexFullMatch r "/pages/\x7bname\x7d/2") = some (some []) := by
  refine ⟨by decide, ?_, by decide⟩
  show SplitMatch _ ('/' :: 'p' :: 'a' :: 'g' :: 'e' :: 's' :: '/' ::
    (['a', 'b', 'c'] ++ ['/', '2'])) _
  apply SplitMatch.lit
  apply SplitMatch.lit
  apply SplitMatch.lit
  apply SplitMatch.lit
  apply SplitMatch.lit
  apply SplitMatch.lit
  apply SplitMatch.lit
  exact @SplitMatch.var "name" [.lit '/', .lit '2'] ['a', 'b', 'c'] ['/', '2'] []
    (by simp) (by decide) (SplitMatch.lit (SplitMatch.lit SplitMatch.nil))

/-- C4 (amended): for every path pattern whose placeholders all compile into
capture groups (no digit occurs after a placeholder brace, expressed by the
compilation hypothesis) with group-free placeholder regexes, the compiled
matcher is anchored and matches exactly the paths that split into the
literal characters matched verbatim, plain placeholders matching one or more
word/hyphen characters captured under their names, and regex placeholders
matching their supplied regexes; every match yields such a decomposition
with its captures. -/
theorem C4_path_pattern_compilation (p : String) (toks : List Tok)
    (hre : MountedResource.path_regex p = some (toksRegex toks))
    (hwf : ∀ t ∈ toks, tokWF t = true) (path : String) :
    (∀ caps, regexFullMatch (toksRegex toks) path = some caps →
      SplitMatch toks path.toList caps) ∧
    ((regexFullMatch (toksRegex toks) path).isSome ↔
      ∃ caps, SplitMatch toks path.toList caps) := by
  constructor
  · intro caps hm
    have hmem := regexFullMatch_eq_some hm
    obtain ⟨pre, hpre, hsm⟩ := toks_mtch_sound toks hwf path.toList [] caps hmem
    rw [List.append_nil] at hpre
    rw [hpre]
    exact hsm
  · constructor
    · intro h
      obtain ⟨caps, hm⟩ := Option.isSome_iff_exists.mp h
      have hmem := regexFullMatch_eq_some hm
      obtain ⟨pre, hpre, hsm⟩ := toks_mtch_sound toks hwf path.toList [] caps hmem
      rw [List.append_nil] at hpre
      exact ⟨caps, hpre ▸ hsm⟩
    · rintro ⟨caps, hsm⟩
      exact regexFullMatch_isSome_iff.mpr ⟨caps, toks_mtch_complete hwf hsm⟩

/-- C4 witness: the pattern `/widgets/\x7bid\x7d` compiles to the expected
token regex and the matcher accepts `/widgets/a-b` with a decomposition. -/
theorem C4_path_pattern_compilation_witness :
    MountedResource.path_regex "/widgets/\x7bid\x7d" =
      some (toksRegex [.lit '/', .lit 'w', .lit 'i', .lit 'd', .lit 'g', .lit 'e',
        .lit 't', .lit 's', .lit '/', .var "id"]) ∧
    ∃ caps, SplitMatch
      [.lit '/', .lit 'w', .lit 'i', .lit 'd', .lit 'g', .lit 'e',
        .lit 't', .lit 's', .lit '/', .var "id"]
      "/widgets/a-b".toList caps := by
  have h := C4_path_pattern_compilation "/widgets/\x7bid\x7d"
    [.lit '/', .lit 'w', .lit 'i', .lit 'd', .lit 'g', .lit 'e',
      .lit 't', .lit 's', .lit '/', .var "id"]
    (by decide) (by decide) "/widgets/a-b"
  exact ⟨by decide, h.2.mp (by decide)⟩

/-- C2 counterexample: for the pattern `/p/\x7bname\x7d/2` the placeholder
is left as literal text by the digit lookahead, so the compiled pattern
matches the literal path `/p/\x7bname\x7d/2` with empty url variables, yet
`format_path` with those extracted variables raises (the format string still
contains the `\x7bname\x7d` replacement field, and the name is missing from
the arguments) instead of producing a re-matching path. -/
theorem C2_counterexample :
    (MountedResource.path_regex "/p/\x7bname\x7d/2").map
        (fun r => regexFullMatch r "/p/\x7bname\x7d/2") = some (some []) ∧
    MountedResource.format_path "/p/\x7bname\x7d/2" [] = .error .formatRaised := by
  exact ⟨by decide, rfl⟩

/-- C2 (amended): for every path pattern whose placeholders all compile into
capture groups (compilation and format-string hypotheses) with group-free
placeholder regexes and distinct names, and every path the compiled pattern
matches, `format_path` applied to the url variables extracted by the match
returns a path that re-matches the pattern (in fact the matched path
itself); and whenever formatting any substitution produces a string that
does not re-match the pattern, `format_path` raises the invalid-substitution
error instead of returning the path. -/
theorem C2_format_path_round_trip (p path : String) (toks : List Tok) (caps : Caps)
    (hre : MountedResource.path_regex p = some (toksRegex toks))
    (hfmt : MountedResource.format_string p = (toksFmtChars toks).asString)
    (hwf : ∀ t ∈ toks, tokWF t = true)
    (hnodup : (toksVarNames toks).Nodup)
    (hm : regexFullMatch (toksRegex toks) path = some caps) :
    MountedResource.format_path p caps = .ok path ∧
      ∀ (args : Caps) (p' : String),
        pyFormat (MountedResource.format_string p) args = some p' →
        regexFullMatch (toksRegex toks) p' = none →
        MountedResource.format_path p args = .error .invalidSubstitutions := by
  have hmem := regexFullMatch_eq_some hm
  obtain ⟨pre, hpre, hsm⟩ := toks_mtch_sound toks hwf path.toList [] caps hmem
  rw [List.append_nil] at hpre
  rw [← hpre] at hsm
  have hkeys : (caps.map Prod.fst).Nodup := by
    rw [splitmatch_caps_keys hsm]
    exact hnodup
  have henv := capsLookup_of_nodup hkeys
  have hfmtaux : pyFormatAux caps .out (toksFmtChars toks) = some path.toList :=
    splitmatch_pyformat caps hwf hsm henv
  have hpy : pyFormat (MountedResource.format_string p) caps = some path := by
    simp only [pyFormat, hfmt, List.toList_asString, hfmtaux, Option.map_some']
    rw [String.asString_toList]
  constructor
  · simp only [MountedResource.format_path, hpy, hre, hm, Option.isSome_some, if_true]
  · intro args p' hpyf hnone
    simp only [MountedResource.format_path, hpyf, hre, hnone, Option.isSome_none]
    simp

/-- C2 witness: the pattern `/widgets/\x7bid\x7d`, the matched path
`/widgets/a-b`, and its extracted variables round-trip through
`format_path`. -/
theorem C2_format_path_round_trip_witness :
    MountedResource.format_path "/widgets/\x7bid\x7d" [("id", "a-b")] =
      .ok "/widgets/a-b" :=
  (C2_format_path_round_trip "/widgets/\x7bid\x7d" "/widgets/a-b"
    [.lit '/', .lit 'w', .lit 'i', .lit 'd', .lit 'g', .lit 'e',
      .lit 't', .lit 's', .lit '/', .var "id"]
    [("id", "a-b")] (by decide) (by decide) (by decide) (by decide) (by decide)).1

/-- C3 (code bug): `get_exc_response` tests `status_code > 400`, so a
response with status exactly 400 bypasses the configured error resource and
is returned as-is, regardless of what the error resource would render —
although the claim and the docstring of `get_exc_response` say the error
resource is used for status 400 or greater.  At 401 the error resource is
rendered, as the claim describes. -/
theorem C3_get_exc_response_skips_400 :
    (∀ render : Resp → RenderOutcome,
      get_exc_response { errorResource := true, renderErrorResource := render }
        { status := 400 } = { status := 400 }) ∧
    get_exc_response
      { errorResource := true,
        renderErrorResource := fun _ => .ok { status := 500, body := "error resource" } }
      { status := 401 } = { status := 500, body := "error resource" } := by
  exact ⟨fun render => rfl, rfl⟩

/-- C10 counterexample: a `WSGIHTTPException` raised while rendering the
error resource is returned as the response itself, not the original
response, contradicting the claim that any exception leads to the original
response being returned unchanged. -/
theorem C10_counterexample :
    get_exc_response
      { errorResource := true,
        renderErrorResource := fun _ => .raiseHttp { status := 403 } }
      { status := 500 } = { status := 403 } ∧
    ({ status := 403 } : Resp) ≠ { status := 500 } := by
  refine ⟨rfl, ?_⟩
  intro h
  have := congrArg Resp.status h
  simp at this

/-- C10 (amended): `get_exc_response` always returns a response (it is a
total function into responses: every exception of the error-resource and
CORS branches is caught).  A non-HTTP exception in either branch is logged
and the original response is returned; an HTTP exception raised while
rendering the error resource is returned as the response itself; an HTTP
exception in the CORS-only branch falls back to the original response. -/
theorem C10_get_exc_response_no_raise (app : ExcApp) (original : Resp) :
    (original.status > 400 ∧ app.errorResource = true ∧
        original.isDebugServerError = false →
      get_exc_response app original =
        match app.renderErrorResource original with
        | .ok r => r
        | .raiseHttp e => e
        | .raiseBase _ => original) ∧
    (¬ (original.status > 400 ∧ app.errorResource = true ∧
        original.isDebugServerError = false) → app.corsEnabled = true →
      get_exc_response app original =
        match app.corsApply original with
        | .ok r => r
        | .raiseHttp _ => original
        | .raiseBase _ => original) ∧
    (¬ (original.status > 400 ∧ app.errorResource = true ∧
        original.isDebugServerError = false) → app.corsEnabled = false →
      get_exc_response app original = original) := by
  refine ⟨?_, ?_, ?_⟩
  · intro h
    simp only [get_exc_response, if_pos h]
    cases app.renderErrorResource original <;> rfl
  · intro h hcors
    simp only [get_exc_response, if_neg h, hcors, if_pos rfl]
    cases app.corsApply original <;> rfl
  · intro h hcors
    simp only [get_exc_response, if_neg h, hcors]
    simp

/-- C10 witness: with a non-HTTP exception in the error-resource branch the
original response comes back. -/
theorem C10_get_exc_response_no_raise_witness :
    get_exc_response
      { errorResource := true,
        renderErrorResource := fun _ => .raiseBase (.other "boom") }
      { status := 500 } = { status := 500 } := by
  have h := (C10_get_exc_response_no_raise
    { errorResource := true,
      renderErrorResource := fun _ => .raiseBase (.other "boom") }
    { status := 500 }).1 ⟨by decide, rfl, rfl⟩
  simpa using h

theorem call_finished_callbacks_of_ne_nil {cbs : List CbOutcome}
    (h : cbs.filterMap cbCollected ≠ []) :
    Request.call_finished_callbacks cbs =
      .error (.requestFinished (cbs.filterMap cbCollected)) := by
  unfold Request.call_finished_callbacks
  match hL : cbs.filterMap cbCollected with
  | [] => exact absurd hL h
  | e :: es => rfl

/-- C6: finished callbacks run at the end of the exception-boundary scope in
insertion order; every callback contributes even when earlier ones raise
(the aggregate lists the exceptions of the callbacks before and after the
raising one, in order); when any raised, a single
`RequestFinishedException` aggregating all of them is raised after the loop,
which the boundary converts into the 500 server-error response substituted
for the original; when none raise, the callbacks succeed and the response
passes through. -/
theorem C6_finished_callbacks (app : ExcApp) (response : Resp)
    (pre post : List CbOutcome) (x : CbOutcome) (e : BaseExc)
    (happ : app.errorResource = false) (hcors : app.corsEnabled = false)
    (hdebug : app.debug = false)
    (hx : cbCollected x = some e) :
    Request.call_finished_callbacks (pre ++ x :: post) =
      .error (.requestFinished
        (pre.filterMap cbCollected ++ e :: post.filterMap cbCollected)) ∧
    boundary_with_callbacks app (.ok response) false (pre ++ x :: post) =
      HTTPInternalServerError ∧
    (∀ cbs : List CbOutcome, cbs.filterMap cbCollected = [] →
      Request.call_finished_callbacks cbs = .ok () ∧
      boundary_with_callbacks app (.ok response) false cbs = response) := by
  have hL : (pre ++ x :: post).filterMap cbCollected =
      pre.filterMap cbCollected ++ e :: post.filterMap cbCollected := by
    rw [List.filterMap_append, List.filterMap_cons, hx]
  have hne : (pre ++ x :: post).filterMap cbCollected ≠ [] := by
    rw [hL]
    intro habs
    exact absurd (List.append_eq_nil.mp habs).2 (by simp)
  have hcall := call_finished_callbacks_of_ne_nil hne
  rw [hL] at hcall
  refine ⟨hcall, ?_, ?_⟩
  · have hrfh : request_finished_handler false (pre ++ x :: post) response =
        .error (.requestFinished
          (pre.filterMap cbCollected ++ e :: post.filterMap cbCollected)) := by
      simp only [request_finished_handler, Bool.false_eq_true, if_false, hcall]
    simp only [boundary_with_callbacks, Except.bind, hrfh]
    simp only [exc_handler, hdebug, Bool.false_eq_true, if_false]
    simp only [get_exc_response, happ]
    simp [hcors]
  · intro cbs h0
    have hok : Request.call_finished_callbacks cbs = .ok () := by
      unfold Request.call_finished_callbacks
      rw [h0]
    refine ⟨hok, ?_⟩
    have hrfh : request_finished_handler false cbs response = .ok response := by
      simp only [request_finished_handler, Bool.false_eq_true, if_false, hok]
    simp only [boundary_with_callbacks, Except.bind, hrfh]
    simp only [exc_handler]
    simp only [get_exc_response, happ, hcors]
    simp

/-- C6 witness: two callbacks, both raising; the second still contributes,
the aggregate lists both, and the final response is the 500 server error. -/
theorem C6_finished_callbacks_witness :
    Request.call_finished_callbacks
      [.raiseBase (.other "first"), .raiseBase (.other "second")] =
      .error (.requestFinished [.other "first", .other "second"]) ∧
    boundary_with_callbacks {} (.ok { status := 200 }) false
      [.raiseBase (.other "first"), .raiseBase (.other "second")] =
      HTTPInternalServerError := by
  have h := C6_finished_callbacks {} { status := 200 } [] [.raiseBase (.other "second")]
    (.raiseBase (.other "first")) (.other "first") rfl rfl rfl rfl
  exact ⟨h.1, h.2.1⟩

/-- C5: for a POST request carrying a non-empty `$method` override, when the
override is in the `tunnel_over_post` allow-list the request method is
replaced by the override and processing continues; when it is not in the
allow-list and debug mode is off, the request is aborted with 400. -/
theorem C5_tweaker_method_override (app : TweakApp) (req : TweakReq) (method : String)
    (hp : truthyParam req.params "$method" = some method)
    (hpost : req.method = "POST") :
    (method ∈ app.tunnel_over_post →
      ∃ req', tweaker app req = .ok req' ∧ req'.method = method) ∧
    (method ∉ app.tunnel_over_post → app.debug = false →
      tweaker app req = .error { status := 400 }) := by
  constructor
  · intro hmem
    simp only [tweaker, hp]
    rw [if_pos ⟨hpost, List.elem_eq_true_of_mem hmem⟩]
    simp only [Except.bind]
    split <;> (try split) <;> (try split) <;> (try split) <;> exact ⟨_, rfl, rfl⟩
  · intro hnmem hdebug
    simp only [tweaker, hp]
    rw [if_neg (fun hc => hnmem (List.mem_of_elem_eq_true hc.2))]
    rw [if_neg (by simp [hdebug])]
    rfl

/-- C5 witness: `POST` with `$method=DELETE` dispatches as DELETE when
DELETE is tunnelled, and aborts with 400 when it is not and debug is off. -/
theorem C5_tweaker_method_override_witness :
    (∃ req', tweaker { tunnel_over_post := ["DELETE"] }
      { method := "POST", params := [("$method", "DELETE")], accept := "",
        path_info := "/w/42" } = .ok req' ∧ req'.method = "DELETE") ∧
    tweaker { tunnel_over_post := [] }
      { method := "POST", params := [("$method", "DELETE")], accept := "",
        path_info := "/w/42" } = .error { status := 400 } := by
  have h := C5_tweaker_method_override { tunnel_over_post := ["DELETE"] }
    { method := "POST", params := [("$method", "DELETE")], accept := "",
      path_info := "/w/42" } "DELETE" (by decide) rfl
  have h2 := C5_tweaker_method_override { tunnel_over_post := [] }
    { method := "POST", params := [("$method", "DELETE")], accept := "",
      path_info := "/w/42" } "DELETE" (by decide) rfl
  exact ⟨h.1 (by decide), h2.2 (by decide) rfl⟩

/-- C7 counterexample: when the obtained representation carries a complete
response as its content, `main` returns that response directly; the
returned response (status 302 here) is not the in-progress response (status
200) with content type, charset and body updated, as the claim requires of
every non-passthrough case. -/
theorem C7_counterexample :
    mainHandler
      { data := .value "x", response := { status := 200 }, infoType := none,
        response_content_type := "text/html",
        registry := fun d =>
          if d = "text/html" then
            some { content_type := "text/html", encoding := "utf-8",
                   content := .resp { status := 302, body := "bypass" } }
          else none } =
      .ok { status := 302, body := "bypass" } ∧
    ∀ ct cs b, ({ status := 302, body := "bypass" } : Resp) ≠
      { status := 200, content_type := ct, charset := cs, body := b } := by
  refine ⟨rfl, ?_⟩
  intro ct cs b h
  have := congrArg Resp.status h
  simp at this

/-- C7 (amended): `main` returns a resource-method `Response` untouched;
returns the in-progress response untouched when its status is 3xx and the
method returned no data; otherwise obtains the representation for the
pinned differentiator when one is configured, else for the negotiated
content type, and then either returns the representation content directly
when it is itself a response, or returns the in-progress response with
content type, charset and body set from the representation. -/
theorem C7_main_handler (st : MainState) :
    (∀ t, st.infoType = some t → mainDifferentiator st = t) ∧
    (st.infoType = none → mainDifferentiator st = st.response_content_type) ∧
    (∀ r, st.data = .response r → mainHandler st = .ok r) ∧
    (300 ≤ st.response.status → st.response.status < 400 → st.data = .noneData →
      mainHandler st = .ok st.response) ∧
    (∀ rep, (∀ r, st.data ≠ .response r) →
      ¬ (300 ≤ st.response.status ∧ st.response.status < 400 ∧
          st.data = RetData.noneData) →
      st.registry (mainDifferentiator st) = some rep →
      (∀ s, rep.content = .text s →
        mainHandler st = .ok { st.response with
          content_type := rep.content_type, charset := rep.encoding, body := s }) ∧
      (∀ r, rep.content = .resp r → mainHandler st = .ok r)) := by
  refine ⟨?_, ?_, ?_, ?_, ?_⟩
  · intro t ht
    simp [mainDifferentiator, ht]
  · intro ht
    simp [mainDifferentiator, ht]
  · intro r hr
    simp [mainHandler, hr]
  · intro h1 h2 hd
    simp only [mainHandler, hd]
    rw [if_pos ⟨h1, h2, trivial⟩]
  · intro rep hnr hn3 hreg
    match hd : st.data with
    | .response r => exact absurd rfl (hd ▸ hnr r)
    | .noneData =>
        constructor
        · intro s hs
          simp only [mainHandler, hd]
          rw [if_neg (fun hc => hn3 ⟨hc.1, hc.2.1, hd⟩), hreg]
          dsimp only
          rw [hs]
        · intro r hr
          simp only [mainHandler, hd]
          rw [if_neg (fun hc => hn3 ⟨hc.1, hc.2.1, hd⟩), hreg]
          dsimp only
          rw [hr]
    | .value v =>
        constructor
        · intro s hs
          simp only [mainHandler, hd]
          rw [if_neg (by simp), hreg]
          dsimp only
          rw [hs]
        · intro r hr
          simp only [mainHandler, hd]
          rw [if_neg (by simp), hreg]
          dsimp only
          rw [hr]

/-- C7 witness: a text representation for the negotiated content type is
rendered into the in-progress response. -/
theorem C7_main_handler_witness :
    mainHandler
      { data := .value "x", response := { status := 200 }, infoType := none,
        response_content_type := "text/html",
        registry := fun d =>
          if d = "text/html" then
            some { content_type := "text/html", encoding := "utf-8",
                   content := .text "page" }
          else none } =
      .ok { status := 200, content_type := "text/html", charset := "utf-8",
            body := "page" } := by
  have h := (C7_main_handler
    { data := .value "x", response := { status := 200 }, infoType := none,
      response_content_type := "text/html",
      registry := fun d =>
        if d = "text/html" then
          some { content_type := "text/html", encoding := "utf-8",
                 content := .text "page" }
        else none }).2.2.2.2
    { content_type := "text/html", encoding := "utf-8", content := .text "page" }
    (fun r h => by simp at h) (by simp) rfl
  exact h.1 "page" rfl

/-- C8 counterexample: a stage returning a non-`Response`, non-`None` value
is passed through by `HandlerWrapper.__call__` instead of raising a
contract-violation error. -/
theorem C8_counterexample :
    HandlerWrapper.call (.ok (.otherRet "junk")) = .ok (.otherRet "junk") ∧
    ∀ r : Resp, HandlerRet.otherRet "junk" ≠ .resp r := by
  refine ⟨rfl, ?_⟩
  intro r h
  cases h

/-- C8 (amended): `HandlerWrapper.__call__` raises `ValueError` exactly when
the stage callable returned `None`; every other returned value — including
non-`Response` values — is passed through unchanged, and raised exceptions
propagate. -/
theorem C8_handler_wrapper (ret : Except PyExc HandlerRet) :
    (ret = .ok .noneRet →
      HandlerWrapper.call ret = .error (.base (.valueError "Handler returned None"))) ∧
    (∀ v, ret = .ok v → v ≠ .noneRet → HandlerWrapper.call ret = .ok v) ∧
    (∀ e, ret = .error e → HandlerWrapper.call ret = .error e) := by
  refine ⟨?_, ?_, ?_⟩
  · intro h
    subst h
    rfl
  · intro v hv hne
    subst hv
    simp [HandlerWrapper.call, Except.bind, hne]
  · intro e he
    subst he
    rfl

/-- C8 witness: a returned response passes through, a returned `None`
raises. -/
theorem C8_handler_wrapper_witness :
    HandlerWrapper.call (.ok (.resp { status := 200 })) = .ok (.resp { status := 200 }) ∧
    HandlerWrapper.call (.ok .noneRet) =
      .error (.base (.valueError "Handler returned None")) := by
  refine ⟨?_, ?_⟩
  · exact (C8_handler_wrapper (.ok (.resp { status := 200 }))).2.1
      (.resp { status := 200 }) rfl (by simp)
  · exact (C8_handler_wrapper (.ok .noneRet)).1 rfl

/-- C9: with no configured response status the default status comes from the
fixed per-method table (DELETE 204, GET 200, HEAD 204, OPTIONS 200,
POST 303, PUT 204); for a method outside the table the construction fails
with a `KeyError` rather than falling back to a default. -/
theorem C9_default_response_status :
    STATUS_MAP "DELETE" = some 204 ∧ STATUS_MAP "GET" = some 200 ∧
    STATUS_MAP "HEAD" = some 204 ∧ STATUS_MAP "OPTIONS" = some 200 ∧
    STATUS_MAP "POST" = some 303 ∧ STATUS_MAP "PUT" = some 204 ∧
    STATUS_MAP "PATCH" = none ∧
    (∀ m s, STATUS_MAP m = some s →
      Request.default_response_status none m = .ok s) ∧
    (∀ m, STATUS_MAP m = none →
      Request.default_response_status none m = .error (.base (.keyError m))) := by
  refine ⟨rfl, rfl, rfl, rfl, rfl, rfl, rfl, ?_, ?_⟩
  · intro m s h
    simp [Request.default_response_status, h]
  · intro m h
    simp [Request.default_response_status, h]

/-- C9 witness: PATCH with no configured status raises `KeyError`. -/
theorem C9_default_response_status_witness :
    Request.default_response_status none "PATCH" =
      .error (.base (.keyError "PATCH")) ∧
    Request.default_response_status none "POST" = .ok 303 := by
  refine ⟨?_, ?_⟩
  · exact C9_default_response_status.2.2.2.2.2.2.2.2 "PATCH" rfl
  · exact C9_default_response_status.2.2.2.2.2.2.2.1 "POST" 303 rfl
